import Mathlib

/-!
Verification of the resilience and matching engine of the LinkedIn
job-application automation repository.

The Python modules `modules/error_recovery.py`, `modules/form_handler.py`,
`modules/qa_database.py` and `modules/automation_manager.py` are shallowly
embedded below: pure helpers become Lean functions, the stateful retry /
form-filling / application loops become explicit state-passing functions
over an environment that records what the page returned at each step, and
side effects (sleeps, CSV appends, element interactions, callback
invocations) are collected in explicit event traces.  Numeric quantities
that Python stores in floats (backoff seconds, similarity scores) are
modelled with rationals; SQLite rows become a Lean structure and the two
queries used by the Q&A store are modelled over a list of rows.
-/

/-- Python's built-in `min` on two numbers, written with an `if` so that
closed instances reduce inside the kernel. -/
def pymin (a b : ℚ) : ℚ := if a ≤ b then a else b

theorem pymin_eq_min (a b : ℚ) : pymin a b = min a b := by
  by_cases h : a ≤ b
  · simp [pymin, h, min_eq_left h]
  · simp [pymin, h, min_eq_right (le_of_not_le h)]

namespace ErrorRecovery

/-- Error taxonomy of `ErrorType` in `modules/error_recovery.py`. -/
inductive ErrorType
  | captcha
  | rate_limit
  | session_timeout
  | network_error
  | form_not_found
  | login_required
  | unknown_error
deriving DecidableEq

/-- The `.value` string of each `ErrorType` enum member. -/
def ErrorType.value : ErrorType → String
  | .captcha => "captcha"
  | .rate_limit => "rate_limit"
  | .session_timeout => "session_timeout"
  | .network_error => "network_error"
  | .form_not_found => "form_not_found"
  | .login_required => "login_required"
  | .unknown_error => "unknown_error"

/-- The fields of `ErrorRecoveryConfig` that `attempt_with_recovery`,
`RetryStrategy` and the CAPTCHA branch read.  `has_captcha_pause_callback`
models whether `config.captcha_pause_callback` is set (non-`None`). -/
structure Config where
  max_retries : Nat
  initial_backoff : ℚ
  max_backoff : ℚ
  backoff_multiplier : ℚ
  captcha_blocking_wait : Bool
  captcha_max_wait : ℚ
  has_captcha_pause_callback : Bool
  rate_limit_max_consecutive : Nat
  session_timeout_auto_login : Bool
deriving DecidableEq

/-- The defaults assigned in `ErrorRecoveryConfig.__init__`. -/
def defaultConfig : Config where
  max_retries := 3
  initial_backoff := 5
  max_backoff := 300
  backoff_multiplier := 2
  captcha_blocking_wait := false
  captcha_max_wait := 300
  has_captcha_pause_callback := false
  rate_limit_max_consecutive := 3
  session_timeout_auto_login := false

/-- Mutable state of `RetryStrategy`. -/
structure RetryState where
  retry_count : Nat
  current_backoff : ℚ
  consecutive_rate_limits : Nat
deriving DecidableEq

/-- `RetryStrategy.reset` (also the state produced by `__init__`). -/
def RetryState.reset (cfg : Config) : RetryState where
  retry_count := 0
  current_backoff := cfg.initial_backoff
  consecutive_rate_limits := 0

/-- `RetryStrategy.get_backoff_time`. -/
def get_backoff_time (cfg : Config) (s : RetryState) : ℚ :=
  pymin s.current_backoff cfg.max_backoff

/-- `RetryStrategy.increase_backoff`. -/
def increase_backoff (cfg : Config) (s : RetryState) : RetryState where
  retry_count := s.retry_count + 1
  current_backoff := pymin (s.current_backoff * cfg.backoff_multiplier) cfg.max_backoff
  consecutive_rate_limits := s.consecutive_rate_limits

/-- Python `f"...{x}..."` interpolation of an `Optional[str]`:
`None` prints as `"None"`. -/
def pyOptStr : Option String → String
  | none => "None"
  | some s => s

/-- Python `error_msg or "CAPTCHA detected"`: `None` and the empty string
are falsy. -/
def pyOrStr (m : Option String) (d : String) : String :=
  match m with
  | none => d
  | some s => if s = "" then d else s

/-- What the environment (the page driven by Selenium plus the host) does
during one iteration of the `attempt_with_recovery` loop: the boolean the
action returns, the classification `ErrorDetector.detect_error` yields when
the action failed, and, for the blocking CAPTCHA wait, the time at which
`request_resume` fires the resume event (`none` = never). -/
structure Obs where
  action_result : Bool
  error : ErrorType
  error_msg : Option String
  resume_at : Option ℚ
deriving DecidableEq

/-- Observable side effects of `attempt_with_recovery`, in order:
invocations of the action, `time.sleep` calls, durable rows appended to
`captcha_events.csv`, invocations of `config.captcha_pause_callback`, and
the duration spent blocked in `captcha_resume_event.wait`. -/
inductive Event
  | invoke
  | sleep (t : ℚ)
  | captchaRecord (e : String)
  | pauseCallback (msg : String)
  | waitResume (d : ℚ)
deriving DecidableEq

/-- Outcome of `attempt_with_recovery`: the `(success, error_message)`
tuple.  `envExhausted` marks runs that consume more loop iterations than
the supplied observation list provides (the Python loop can iterate
unboundedly when CAPTCHAs keep being resumed, so the embedding is fuelled
by the observation list). -/
inductive Outcome
  | success
  | failure (msg : String)
  | envExhausted
deriving DecidableEq

/-- The duration `captcha_resume_event.wait(timeout=w)` blocks for, given
the time the resume signal arrives (if ever). -/
def waitDuration (w : ℚ) : Option ℚ → ℚ
  | none => w
  | some t => pymin t w

/-- Whether `captcha_resume_event.wait(timeout=w)` returns `True`. -/
def waitArrived (w : ℚ) : Option ℚ → Bool
  | none => false
  | some t => decide (t ≤ w)

/-- One iteration body of `attempt_with_recovery`; split out so
`attemptLoop` stays structurally recursive on the observation list.  The
branches mirror the source in order: success, unknown error, CAPTCHA
(with the optional blocking wait), rate limit, session timeout, network
error, and the catch-all. -/
def attemptStep (cfg : Config) (o : Obs) (attempt : Nat) (s : RetryState)
    (cont : Nat → RetryState → List Event × Outcome) : List Event × Outcome :=
  if o.action_result then
    ([.invoke], .success)
  else if o.error = .unknown_error then
    ([.invoke], .failure "Unknown error")
  else if o.error = .captcha then
    let pre : List Event := [.invoke, .captchaRecord "paused"]
    if cfg.captcha_blocking_wait then
      let cb : List Event :=
        if cfg.has_captcha_pause_callback then
          [.pauseCallback (pyOrStr o.error_msg "CAPTCHA detected")]
        else []
      let d := waitDuration cfg.captcha_max_wait o.resume_at
      if waitArrived cfg.captcha_max_wait o.resume_at then
        let rest := cont attempt s
        (pre ++ cb ++ [.waitResume d, .captchaRecord "resumed"] ++ rest.1, rest.2)
      else
        (pre ++ cb ++ [.waitResume d, .captchaRecord "timeout"],
          .failure ("CAPTCHA timeout: " ++ pyOptStr o.error_msg))
    else
      (pre, .failure ("CAPTCHA detected: " ++ pyOptStr o.error_msg))
  else if o.error = .rate_limit then
    let b := get_backoff_time cfg s
    let rest := cont (attempt + 1) (increase_backoff cfg s)
    (.invoke :: .sleep b :: rest.1, rest.2)
  else if o.error = .session_timeout then
    ([.invoke], .failure "Session timeout")
  else if o.error = .network_error then
    let b := get_backoff_time cfg s
    let rest := cont (attempt + 1) (increase_backoff cfg s)
    (.invoke :: .sleep b :: rest.1, rest.2)
  else
    ([.invoke], .failure (o.error.value ++ ": " ++ pyOptStr o.error_msg))

/-- The `while attempt <= self.retry_strategy.config.max_retries` loop of
`ErrorRecoveryManager.attempt_with_recovery`, for an action that never
raises.  One `Obs` is consumed per loop iteration; the returned list is
the trace of observable effects.  Because a CAPTCHA that is resumed
re-runs the loop body without incrementing `attempt`, the Python loop is
not bounded by `max_retries`; the observation list doubles as fuel and
`envExhausted` flags runs that would need more iterations. -/
def attemptLoop (cfg : Config) : List Obs → Nat → RetryState → List Event × Outcome
  | [], attempt, _ =>
    if cfg.max_retries < attempt then
      ([], .failure ("Max retries (" ++ toString cfg.max_retries ++ ") exceeded"))
    else
      ([], .envExhausted)
  | o :: rest, attempt, s =>
    if cfg.max_retries < attempt then
      ([], .failure ("Max retries (" ++ toString cfg.max_retries ++ ") exceeded"))
    else
      attemptStep cfg o attempt s (fun a t => attemptLoop cfg rest a t)

/-- `ErrorRecoveryManager.attempt_with_recovery(action, name, max_retries)`.
The strategy is `reset()` first; a truthy `max_retries` argument overrides
`config.max_retries` before the loop starts (Python `if max_retries:`
treats both `None` and `0` as falsy). -/
def attempt_with_recovery (cfg : Config) (override : Option Nat) (obs : List Obs) :
    List Event × Outcome :=
  let cfg2 := match override with
    | some n => if n ≠ 0 then { cfg with max_retries := n } else cfg
    | none => cfg
  attemptLoop cfg2 obs 0 (RetryState.reset cfg2)

/-- The backoff value held in `current_backoff` after `i` calls to
`increase_backoff`, starting from `b`. -/
def backoffIter (cfg : Config) (b : ℚ) : Nat → ℚ
  | 0 => b
  | i + 1 => backoffIter cfg (pymin (b * cfg.backoff_multiplier) cfg.max_backoff) i

/-- An observation in which the action fails and the detector reports a
rate limit, and no CAPTCHA resume ever arrives. -/
def rlObs (m : Option String) : Obs where
  action_result := false
  error := .rate_limit
  error_msg := m
  resume_at := none

theorem backoffIter_nonneg (cfg : Config) (hM : 0 ≤ cfg.max_backoff)
    (hm : 0 ≤ cfg.backoff_multiplier) :
    ∀ (i : Nat) (b : ℚ), 0 ≤ b → 0 ≤ backoffIter cfg b i := by
  intro i
  induction i with
  | zero => intro b hb; exact hb
  | succ i ih =>
    intro b hb
    refine ih _ ?_
    rw [pymin_eq_min]
    exact le_min (mul_nonneg hb hm) hM

/-- Capping each iterated backoff by `max_backoff` yields the capped
geometric sequence `min (b · mult^i) max_backoff`. -/
theorem backoffIter_min (cfg : Config) (hm : 1 ≤ cfg.backoff_multiplier)
    (hM : 0 ≤ cfg.max_backoff) :
    ∀ (i : Nat) (b : ℚ), 0 ≤ b →
      min (backoffIter cfg b i) cfg.max_backoff =
        min (b * cfg.backoff_multiplier ^ i) cfg.max_backoff := by
  intro i
  induction i with
  | zero => intro b _; simp [backoffIter]
  | succ i ih =>
    intro b hb
    have hm0 : (0 : ℚ) ≤ cfg.backoff_multiplier := le_trans zero_le_one hm
    have hbm : 0 ≤ b * cfg.backoff_multiplier := mul_nonneg hb hm0
    have hpow : (1 : ℚ) ≤ cfg.backoff_multiplier ^ i := one_le_pow₀ hm
    have hstep : backoffIter cfg b (i + 1) =
        backoffIter cfg (pymin (b * cfg.backoff_multiplier) cfg.max_backoff) i := rfl
    rw [hstep, pymin_eq_min, ih _ (le_min hbm hM)]
    rcases le_total (b * cfg.backoff_multiplier) cfg.max_backoff with h | h
    · rw [min_eq_left h, pow_succ]
      ring_nf
    · rw [min_eq_right h]
      have h1 : cfg.max_backoff ≤ cfg.max_backoff * cfg.backoff_multiplier ^ i :=
        le_mul_of_one_le_right hM hpow
      have h2 : cfg.max_backoff ≤ b * cfg.backoff_multiplier ^ (i + 1) := by
        have h3 : b * cfg.backoff_multiplier * 1 ≤
            b * cfg.backoff_multiplier * cfg.backoff_multiplier ^ i :=
          mul_le_mul_of_nonneg_left hpow hbm
        calc cfg.max_backoff ≤ b * cfg.backoff_multiplier := h
          _ = b * cfg.backoff_multiplier * 1 := by ring
          _ ≤ b * cfg.backoff_multiplier * cfg.backoff_multiplier ^ i := h3
          _ = b * cfg.backoff_multiplier ^ (i + 1) := by rw [pow_succ]; ring
      rw [min_eq_right h1, min_eq_right h2]

/-- Running the loop on `j` consecutive rate-limit observations, starting
at attempt `a` with `a + j = max_retries + 1`, performs one action
invocation followed by one backoff sleep per iteration and ends with the
max-retries failure. -/
theorem attemptLoop_rate_limit (cfg : Config) (m : Option String) :
    ∀ (j a : Nat) (s : RetryState), a + j = cfg.max_retries + 1 →
      attemptLoop cfg (List.replicate j (rlObs m)) a s =
        (((List.range j).map (fun i =>
            [Event.invoke,
             Event.sleep (pymin (backoffIter cfg s.current_backoff i) cfg.max_backoff)])).flatten,
         .failure ("Max retries (" ++ toString cfg.max_retries ++ ") exceeded")) := by
  intro j
  induction j with
  | zero =>
    intro a s ha
    have hlt : cfg.max_retries < a := by omega
    simp [attemptLoop, hlt]
  | succ j ih =>
    intro a s ha
    have hle : ¬ cfg.max_retries < a := by omega
    have hrec := ih (a + 1) (increase_backoff cfg s) (by omega)
    have hstep : attemptLoop cfg (List.replicate (j + 1) (rlObs m)) a s =
        (Event.invoke :: Event.sleep (pymin s.current_backoff cfg.max_backoff) ::
           (attemptLoop cfg (List.replicate j (rlObs m)) (a + 1) (increase_backoff cfg s)).1,
         (attemptLoop cfg (List.replicate j (rlObs m)) (a + 1) (increase_backoff cfg s)).2) := by
      simp [List.replicate_succ, attemptLoop, hle, attemptStep, rlObs, get_backoff_time]
    rw [hstep, hrec]
    simp only [List.range_succ_eq_map, List.map_cons, List.flatten_cons, List.map_map]
    rfl

/-- Claim C1: with an action that fails on every invocation while the
detector classifies the page as RateLimit each time, and no override of
`max_retries`, `attempt_with_recovery` invokes the action exactly
`max_retries + 1` times, each failed iteration sleeps for the capped
geometric backoff `min (initial_backoff · backoff_multiplier^k) max_backoff`
(so in particular the sleeps preceding the retries follow the sequence
initial, initial·mult, initial·mult², each capped at `max_backoff`), and
the call returns failure with the max-retries-exceeded message. -/
theorem claim_C1_rate_limit_retry_budget (cfg : Config) (m : Option String)
    (hb : 0 ≤ cfg.initial_backoff) (hm : 1 ≤ cfg.backoff_multiplier)
    (hM : 0 ≤ cfg.max_backoff) :
    attempt_with_recovery cfg none (List.replicate (cfg.max_retries + 1) (rlObs m)) =
      (((List.range (cfg.max_retries + 1)).map (fun k =>
          [Event.invoke,
           Event.sleep (pymin (cfg.initial_backoff * cfg.backoff_multiplier ^ k)
             cfg.max_backoff)])).flatten,
       .failure ("Max retries (" ++ toString cfg.max_retries ++ ") exceeded")) := by
  have h := attemptLoop_rate_limit cfg m (cfg.max_retries + 1) 0 (RetryState.reset cfg)
    (by omega)
  have hmap : (List.range (cfg.max_retries + 1)).map (fun i =>
      [Event.invoke,
       Event.sleep (pymin (backoffIter cfg (RetryState.reset cfg).current_backoff i)
         cfg.max_backoff)]) =
      (List.range (cfg.max_retries + 1)).map (fun k =>
        [Event.invoke,
         Event.sleep (pymin (cfg.initial_backoff * cfg.backoff_multiplier ^ k)
           cfg.max_backoff)]) := by
    refine List.map_congr_left (fun i _ => ?_)
    rw [show (RetryState.reset cfg).current_backoff = cfg.initial_backoff from rfl,
      pymin_eq_min, pymin_eq_min, backoffIter_min cfg hm hM i cfg.initial_backoff hb]
  calc attempt_with_recovery cfg none (List.replicate (cfg.max_retries + 1) (rlObs m))
      = attemptLoop cfg (List.replicate (cfg.max_retries + 1) (rlObs m)) 0
          (RetryState.reset cfg) := rfl
    _ = _ := by rw [h, hmap]

/-- Witness for C1 at the source defaults (`max_retries = 3`,
`initial_backoff = 5`, `backoff_multiplier = 2.0`, `max_backoff = 300`):
four invocations, sleeps 5, 10, 20, 40, then the max-retries failure. -/
theorem claim_C1_witness :
    attempt_with_recovery defaultConfig none
        (List.replicate 4 (rlObs (some "Rate limit or throttling detected"))) =
      ([.invoke, .sleep 5, .invoke, .sleep 10, .invoke, .sleep 20, .invoke, .sleep 40],
       .failure "Max retries (3) exceeded") := by
  have h := claim_C1_rate_limit_retry_budget defaultConfig
    (some "Rate limit or throttling detected")
    (by norm_num [defaultConfig]) (by norm_num [defaultConfig]) (by norm_num [defaultConfig])
  refine h.trans ?_
  norm_num [defaultConfig, List.range_succ, pymin]
  decide

/-- Claim C2: with `captcha_blocking_wait` enabled and a pause callback
configured, when an attempt fails and the detector classifies the page as
Captcha, the loop durably records "paused", invokes the pause callback,
and blocks on the resume event for at most `captcha_max_wait`: if the
resume signal arrives within the wait it records "resumed" and re-runs
the loop on the remaining observations with the same attempt counter and
the same retry state; if the signal never arrives, or arrives only after
`captcha_max_wait`, it records "timeout" and returns failure.  The three
implications cover resume-in-time, no-resume, and late-resume; the first
conjunct bounds the blocked duration in every case. -/
theorem claim_C2_captcha_blocking_pause_resume (cfg : Config) (o : Obs)
    (rest : List Obs) (a : Nat) (s : RetryState)
    (hblock : cfg.captcha_blocking_wait = true)
    (hcb : cfg.has_captcha_pause_callback = true)
    (hfail : o.action_result = false)
    (herr : o.error = .captcha)
    (ha : ¬ cfg.max_retries < a) :
    waitDuration cfg.captcha_max_wait o.resume_at ≤ cfg.captcha_max_wait ∧
    (∀ t : ℚ, o.resume_at = some t → t ≤ cfg.captcha_max_wait →
      attemptLoop cfg (o :: rest) a s =
        ([Event.invoke, Event.captchaRecord "paused",
          Event.pauseCallback (pyOrStr o.error_msg "CAPTCHA detected"),
          Event.waitResume (pymin t cfg.captcha_max_wait),
          Event.captchaRecord "resumed"] ++ (attemptLoop cfg rest a s).1,
         (attemptLoop cfg rest a s).2)) ∧
    (o.resume_at = none →
      attemptLoop cfg (o :: rest) a s =
        ([Event.invoke, Event.captchaRecord "paused",
          Event.pauseCallback (pyOrStr o.error_msg "CAPTCHA detected"),
          Event.waitResume cfg.captcha_max_wait, Event.captchaRecord "timeout"],
         .failure ("CAPTCHA timeout: " ++ pyOptStr o.error_msg))) ∧
    (∀ t : ℚ, o.resume_at = some t → cfg.captcha_max_wait < t →
      attemptLoop cfg (o :: rest) a s =
        ([Event.invoke, Event.captchaRecord "paused",
          Event.pauseCallback (pyOrStr o.error_msg "CAPTCHA detected"),
          Event.waitResume (pymin t cfg.captcha_max_wait), Event.captchaRecord "timeout"],
         .failure ("CAPTCHA timeout: " ++ pyOptStr o.error_msg))) := by
  have hne : o.error ≠ .unknown_error := by rw [herr]; simp
  refine ⟨?_, ?_, ?_, ?_⟩
  · cases hres : o.resume_at with
    | none => simp [waitDuration]
    | some t => simp [waitDuration, pymin_eq_min, min_le_right]
  · intro t hres hle
    simp [attemptLoop, ha, attemptStep, hfail, herr, hblock, hcb, hres, hle,
      waitArrived, waitDuration]
  · intro hres
    simp [attemptLoop, ha, attemptStep, hfail, herr, hblock, hcb, hres,
      waitArrived, waitDuration]
  · intro t hres hgt
    have hnle : ¬ t ≤ cfg.captcha_max_wait := not_le_of_lt hgt
    simp [attemptLoop, ha, attemptStep, hfail, herr, hblock, hcb, hres, hnle,
      waitArrived, waitDuration]

/-- The default configuration with the blocking CAPTCHA wait and a pause
callback enabled, as the GUI host configures it. -/
def blockingConfig : Config :=
  { defaultConfig with captcha_blocking_wait := true, has_captcha_pause_callback := true }

/-- A failing attempt classified as CAPTCHA whose resume signal arrives
at 7 seconds. -/
def captchaObs7 : Obs where
  action_result := false
  error := .captcha
  error_msg := some "CAPTCHA detected on page"
  resume_at := some 7

/-- An observation whose action simply succeeds. -/
def successObs : Obs where
  action_result := true
  error := .unknown_error
  error_msg := none
  resume_at := none

/-- Witness for C2: the CAPTCHA attempt is paused, the callback invoked,
the loop blocks 7 ≤ 300 seconds, records "resumed", and the same attempt
is retried (here succeeding), all without consuming retry budget. -/
theorem claim_C2_witness :
    attemptLoop blockingConfig [captchaObs7, successObs] 0
        (RetryState.reset blockingConfig) =
      ([Event.invoke, Event.captchaRecord "paused",
        Event.pauseCallback "CAPTCHA detected on page", Event.waitResume 7,
        Event.captchaRecord "resumed", Event.invoke], .success) := by
  have h := (claim_C2_captcha_blocking_pause_resume blockingConfig captchaObs7
    [successObs] 0 (RetryState.reset blockingConfig) rfl rfl rfl rfl
    (by decide)).2.1 7 rfl (by norm_num [blockingConfig, defaultConfig])
  rw [h]
  decide

end ErrorRecovery

/-!  Character and string helpers shared by `FormHandler`, `QuestionHandler`
and `QADatabase`.  Strings are handled as `List Char` (via `String.data`);
the Python originals operate on ASCII-ish text, and `\\s`, `\\w`, `lower`
and `strip` are modelled on their ASCII behaviour. -/

/-- Python regex `\\s` / `str.strip` whitespace, ASCII range:
space, tab, newline, carriage return, vertical tab, form feed. -/
def pyIsSpace (c : Char) : Bool :=
  c = ' ' || c = '\t' || c = '\n' || c = '\r' || c.toNat = 11 || c.toNat = 12

/-- Python `str.lower` on an ASCII letter. -/
def pyLowerChar (c : Char) : Char :=
  if 'A' ≤ c ∧ c ≤ 'Z' then Char.ofNat (c.toNat + 32) else c

/-- Python regex `\\w` (word character), ASCII range. -/
def pyIsWordChar (c : Char) : Bool :=
  ('a' ≤ c && c ≤ 'z') || ('A' ≤ c && c ≤ 'Z') || ('0' ≤ c && c ≤ '9') || c = '_'

/-- Split into whitespace-delimited segments, keeping empties: the first
component is the segment before the first whitespace character and the
second lists the remaining segments. -/
def splitSp : List Char → List Char × List (List Char)
  | [] => ([], [])
  | c :: s =>
    let r := splitSp s
    if pyIsSpace c then ([], r.1 :: r.2) else (c :: r.1, r.2)

/-- Python `str.split()` with no argument: the maximal nonempty runs of
non-whitespace characters. -/
def wordsOf (l : List Char) : List (List Char) :=
  ((splitSp l).1 :: (splitSp l).2).filter (fun w => !w.isEmpty)

/-- Python `re.sub(r"\\s+", " ", ·)`: each maximal whitespace run becomes
one space.  The flag records whether the previous character was part of a
whitespace run. -/
def collapseWs : Bool → List Char → List Char
  | _, [] => []
  | prev, c :: r =>
    if pyIsSpace c then
      (if prev then collapseWs true r else ' ' :: collapseWs true r)
    else c :: collapseWs false r

/-- Python `str.strip()`: drop leading and trailing whitespace. -/
def pyStrip (l : List Char) : List Char :=
  ((l.dropWhile pyIsSpace).reverse.dropWhile pyIsSpace).reverse

/-- The common normalisation `re.sub(r"\\s+", " ", s.strip().lower())`
(the whole of `FormHandler._normalize`, and the first stage of
`QADatabase._normalize_question`). -/
def normalizeWs (s : List Char) : List Char :=
  collapseWs false ((pyStrip s).map pyLowerChar)

namespace FormHandler

/-- `FormHandler._normalize`. -/
def normalize (s : List Char) : List Char := normalizeWs s

/-- The set of word tokens of the normalised string, as built by
`set(self._normalize(x).split())`. -/
def tokenSet (s : List Char) : Finset (List Char) :=
  (wordsOf (normalize s)).toFinset

/-- `FormHandler._token_overlap`: `0.0` when either token set is empty,
else `len(intersection) / max(len(ta), len(tb))`. -/
def token_overlap (a b : String) : ℚ :=
  let ta := tokenSet a.data
  let tb := tokenSet b.data
  if ta = ∅ ∨ tb = ∅ then 0
  else ((ta ∩ tb).card : ℚ) / ((max ta.card tb.card : ℕ) : ℚ)

/-- Evaluation helper: the value of `token_overlap` once the token-set
cardinalities are known. -/
theorem token_overlap_eval (a b : String) (i m : ℕ)
    (h1 : ¬ (tokenSet a.data = ∅ ∨ tokenSet b.data = ∅))
    (hi : (tokenSet a.data ∩ tokenSet b.data).card = i)
    (hm : max (tokenSet a.data).card (tokenSet b.data).card = m) :
    token_overlap a b = (i : ℚ) / (m : ℚ) := by
  simp only [token_overlap, if_neg h1, hi, hm]

/-- Claim C7 (counterexample): the claim asserts a score of 1.0 whenever
the two normalized forms are identical, but `""` and `" "` normalize to
the same (empty) string while `_token_overlap` returns 0.0 for them, so
the claim as stated is false at this input. -/
theorem claim_C7_counterexample :
    normalize (String.data "") = normalize (String.data " ") ∧
      token_overlap "" " " ≠ 1 := by
  constructor
  · decide
  · have h : token_overlap "" " " = 0 := by
      simp only [token_overlap]
      rw [if_pos (by decide)]
    rw [h]
    norm_num

/-- Claim C7 (amended): for all strings `a` and `b`, the token-overlap
score is symmetric and lies in `[0, 1]`; it equals 1.0 whenever `a` and
`b` have identical normalized forms with at least one word token (when a
string has no word tokens the score is 0.0, even against an identically
normalizing string); and it equals 0.0 whenever the normalized word sets
are disjoint. -/
theorem claim_C7_token_overlap_algebra (a b : String) :
    token_overlap a b = token_overlap b a ∧
    0 ≤ token_overlap a b ∧ token_overlap a b ≤ 1 ∧
    (normalize a.data = normalize b.data → tokenSet a.data ≠ ∅ →
      token_overlap a b = 1) ∧
    (tokenSet a.data ∩ tokenSet b.data = ∅ → token_overlap a b = 0) := by
  refine ⟨?_, ?_, ?_, ?_, ?_⟩
  · by_cases h1 : tokenSet a.data = ∅ ∨ tokenSet b.data = ∅
    · have h2 : tokenSet b.data = ∅ ∨ tokenSet a.data = ∅ := h1.symm
      simp [token_overlap, h1, h2]
    · have h2 : ¬ (tokenSet b.data = ∅ ∨ tokenSet a.data = ∅) := fun hc => h1 hc.symm
      simp only [token_overlap, if_neg h1, if_neg h2]
      rw [Finset.inter_comm, Nat.max_comm]
  · by_cases h1 : tokenSet a.data = ∅ ∨ tokenSet b.data = ∅
    · simp [token_overlap, h1]
    · simp only [token_overlap, if_neg h1]
      positivity
  · by_cases h1 : tokenSet a.data = ∅ ∨ tokenSet b.data = ∅
    · simp [token_overlap, h1]
    · simp only [token_overlap, if_neg h1]
      have ha : tokenSet a.data ≠ ∅ := fun hc => h1 (Or.inl hc)
      have hpos : 0 < (tokenSet a.data).card :=
        Finset.card_pos.mpr (Finset.nonempty_iff_ne_empty.mpr ha)
      have hm : 0 < max (tokenSet a.data).card (tokenSet b.data).card :=
        lt_of_lt_of_le hpos (le_max_left _ _)
      rw [div_le_one (by exact_mod_cast hm)]
      have hle : (tokenSet a.data ∩ tokenSet b.data).card ≤
          max (tokenSet a.data).card (tokenSet b.data).card :=
        le_trans (Finset.card_le_card Finset.inter_subset_left) (le_max_left _ _)
      exact_mod_cast hle
  · intro heq hne
    have hts : tokenSet a.data = tokenSet b.data := by
      unfold tokenSet
      rw [heq]
    have h1 : ¬ (tokenSet a.data = ∅ ∨ tokenSet b.data = ∅) := by
      rw [← hts]
      intro hc
      exact hne (hc.elim id id)
    have hcard : ((tokenSet a.data ∩ tokenSet b.data).card : ℚ) =
        ((tokenSet a.data).card : ℚ) := by
      rw [← hts, Finset.inter_self]
    have hmax : max (tokenSet a.data).card (tokenSet b.data).card =
        (tokenSet a.data).card := by
      rw [← hts, Nat.max_self]
    have hpos : 0 < (tokenSet a.data).card :=
      Finset.card_pos.mpr (Finset.nonempty_iff_ne_empty.mpr hne)
    simp only [token_overlap, if_neg h1, hcard, hmax]
    rw [div_self]
    exact_mod_cast Nat.pos_iff_ne_zero.mp hpos
  · intro hdisj
    by_cases h1 : tokenSet a.data = ∅ ∨ tokenSet b.data = ∅
    · simp [token_overlap, h1]
    · simp [token_overlap, if_neg h1, hdisj]

/-- Witness for C7 at concrete inputs: `"First Name"` and `"first  name"`
normalize identically with a nonempty token set, so the amended theorem
yields score 1.0 there. -/
theorem claim_C7_witness : token_overlap "First Name" "first  name" = 1 :=
  (claim_C7_token_overlap_algebra "First Name" "first  name").2.2.2.1
    (by decide) (by decide)

/-- A detected form field as produced by `FormHandler.detect_fields`: the
canonical key, the field type string (`"text"`, `"select"`, `"checkbox"`,
`"file"`), the prioritized label candidates, and an identifier standing
for the underlying WebElement. -/
structure Field where
  key : String
  ftype : String
  candidates : List String
  elemId : Nat
deriving DecidableEq

/-- The page-side behaviour of element interactions: whether the Selenium
call on a given element succeeds, the current `is_selected()` state of a
checkbox/radio, and `os.path.exists` for file uploads. -/
structure FillEnv where
  elemOk : Nat → Bool
  elemSelected : Nat → Bool
  fileExists : String → Bool

/-- Python `key in answers` / `answers[key]` for the answers dict, whose
insertion order the association list preserves (keys are unique in a
dict). -/
def lookupAns (answers : List (String × String)) (k : String) : Option String :=
  (answers.find? (fun kv => kv.1 = k)).map (fun kv => kv.2)

/-- Lookup in `norm_map = {self._normalize(k): v for k, v in answers.items()}`:
when two answer keys normalize identically the later one overwrites the
earlier, hence the search over the reversed list. -/
def normLookup (answers : List (String × String)) (nk : List Char) : Option String :=
  (answers.reverse.find? (fun kv => normalize kv.1.data = nk)).map (fun kv => kv.2)

/-- `find_answer_for_field` inside `FormHandler.fill_form`: exact candidate
match first, then normalized match (returning the candidate as matched
key), then the first candidate/answer-key pair with token overlap ≥ 0.6
(returning the answer key as matched key). -/
def find_answer_for_field (answers : List (String × String))
    (candidates : List String) : Option (String × String) :=
  match candidates.findSome? (fun key => (lookupAns answers key).map (fun v => (v, key))) with
  | some r => some r
  | none =>
    match candidates.findSome? (fun key =>
        (normLookup answers (normalize key.data)).map (fun v => (v, key))) with
    | some r => some r
    | none =>
      candidates.findSome? (fun key =>
        answers.findSome? (fun kv =>
          if (3 / 5 : ℚ) ≤ token_overlap key kv.1 then some (kv.2, kv.1) else none))

/-- Python `bool(answer)` for a string value: empty is falsy. -/
def pyBoolStr (s : String) : Bool := decide (s ≠ "")

/-- A mutating interaction performed on a form element. -/
inductive Action
  | clear
  | send_keys
  | select_text
  | click
deriving DecidableEq

/-- `FormHandler.fill_text`: clear then type.  A Selenium failure is
modelled as the element interaction failing as a whole. -/
def fill_text (env : FillEnv) (elemId : Nat) : List (Nat × Action) × Bool :=
  if env.elemOk elemId then ([(elemId, .clear), (elemId, .send_keys)], true)
  else ([], false)

/-- `FormHandler.select_option`: select by visible text. -/
def select_option (env : FillEnv) (elemId : Nat) : List (Nat × Action) × Bool :=
  if env.elemOk elemId then ([(elemId, .select_text)], true)
  else ([], false)

/-- `FormHandler.click_checkbox`: click only when the current state
differs from the desired one. -/
def click_checkbox (env : FillEnv) (elemId : Nat) (value : Bool) :
    List (Nat × Action) × Bool :=
  if env.elemOk elemId then
    (if env.elemSelected elemId ≠ value then [(elemId, .click)] else [], true)
  else ([], false)

/-- `FormHandler.upload_file`: verify the path exists before sending it to
the file input. -/
def upload_file (env : FillEnv) (elemId : Nat) (path : String) :
    List (Nat × Action) × Bool :=
  if env.fileExists path then
    (if env.elemOk elemId then ([(elemId, .send_keys)], true) else ([], false))
  else ([], false)

/-- The type dispatch in the body of `fill_form` (`ok` stays `False` for a
type outside the four handled ones). -/
def fillByType (env : FillEnv) (f : Field) (answer : String) :
    List (Nat × Action) × Bool :=
  if f.ftype = "text" then fill_text env f.elemId
  else if f.ftype = "select" then select_option env f.elemId
  else if f.ftype = "checkbox" then click_checkbox env f.elemId (pyBoolStr answer)
  else if f.ftype = "file" then upload_file env f.elemId answer
  else ([], false)

/-- Per-field entry of the dict `fill_form` returns: either
`{"status": "skipped", "reason": "no_answer"}` or
`{"status": ok|failed, "matched_key": ..., "type": ...}`. -/
inductive FieldOutcome
  | skipped
  | done (status : String) (matched_key : String) (ftype : String)
deriving DecidableEq

/-- Accumulated outcome of `fill_form`: the per-field result entries in
iteration order, every element interaction performed, and every progress
percentage emitted to `progress_cb`. -/
structure FillResult where
  results : List (String × FieldOutcome)
  events : List (Nat × Action)
  progress : List Nat
deriving DecidableEq

/-- The `for idx, (key, meta) in enumerate(fields.items())` loop of
`fill_form`.  A field with no matching answer records `skipped` and
`continue`s — before the progress emission, so no percentage is emitted
for it.  `int(((idx + 1) / total) * 100)` is modelled as Nat floor
division (exact for the small field counts involved). -/
def fillLoop (env : FillEnv) (answers : List (String × String)) (total : Nat) :
    List Field → Nat → FillResult
  | [], _ => ⟨[], [], []⟩
  | f :: rest, idx =>
    let r := fillLoop env answers total rest (idx + 1)
    match find_answer_for_field answers f.candidates with
    | none => ⟨(f.key, .skipped) :: r.results, r.events, r.progress⟩
    | some av =>
      let fb := fillByType env f av.1
      let status := if fb.2 then "ok" else "failed"
      ⟨(f.key, .done status av.2 f.ftype) :: r.results, fb.1 ++ r.events,
        ((idx + 1) * 100 / total) :: r.progress⟩

/-- `FormHandler.fill_form(form_element, answers)` over the detected
fields; `total = len(fields) or 1`. -/
def fill_form (env : FillEnv) (fields : List Field)
    (answers : List (String × String)) : FillResult :=
  fillLoop env answers (if fields.length = 0 then 1 else fields.length) fields 0

/-- A token-overlap score of 0.0 for strings with disjoint normalized
word sets (standalone helper, also usable for concrete evaluations). -/
theorem token_overlap_disjoint_eq_zero (a b : String)
    (h : tokenSet a.data ∩ tokenSet b.data = ∅) : token_overlap a b = 0 := by
  by_cases h1 : tokenSet a.data = ∅ ∨ tokenSet b.data = ∅
  · simp [token_overlap, h1]
  · simp [token_overlap, if_neg h1, h]

/-- Every interaction produced by the type dispatch touches the field's
own element. -/
theorem fillByType_fst (env : FillEnv) (f : Field) (a : String) :
    ∀ e ∈ (fillByType env f a).1, e.1 = f.elemId := by
  intro e he
  unfold fillByType fill_text select_option click_checkbox upload_file at he
  split_ifs at he <;> simp_all
  rcases he with rfl | rfl <;> rfl

/-- Every interaction performed by the fill loop touches the element of
one of the processed fields. -/
theorem fillLoop_events_mem (env : FillEnv) (answers : List (String × String))
    (total : Nat) : ∀ (fields : List Field) (idx : Nat) (e : Nat × Action),
    e ∈ (fillLoop env answers total fields idx).events →
      e.1 ∈ fields.map Field.elemId := by
  intro fields
  induction fields with
  | nil => intro idx e he; simp [fillLoop] at he
  | cons f rest ih =>
    intro idx e he
    rw [List.map_cons, List.mem_cons]
    cases hfa : find_answer_for_field answers f.candidates with
    | none =>
      simp only [fillLoop, hfa] at he
      exact Or.inr (ih (idx + 1) e he)
    | some av =>
      simp only [fillLoop, hfa, List.mem_append] at he
      rcases he with he | he
      · exact Or.inl (fillByType_fst env f av.1 e he)
      · exact Or.inr (ih (idx + 1) e he)

/-- Core of claim C8, stated over the fill loop: a field whose candidates
match no answer is recorded as skipped and none of the loop's
interactions touch its element. -/
theorem fillLoop_skipped_spec (env : FillEnv) (answers : List (String × String))
    (total : Nat) : ∀ (fields : List Field) (idx : Nat) (f : Field),
    f ∈ fields →
    (fields.map Field.key).Nodup →
    (fields.map Field.elemId).Nodup →
    find_answer_for_field answers f.candidates = none →
    ((fillLoop env answers total fields idx).results.find?
        (fun kv => kv.1 = f.key) = some (f.key, FieldOutcome.skipped)) ∧
      ∀ e ∈ (fillLoop env answers total fields idx).events, e.1 ≠ f.elemId := by
  intro fields
  induction fields with
  | nil => intro idx f hf; exact absurd hf (List.not_mem_nil f)
  | cons g rest ih =>
    intro idx f hf hkeys hids hnone
    rw [List.map_cons, List.nodup_cons] at hkeys hids
    rcases List.mem_cons.mp hf with rfl | hf2
    · constructor
      · simp only [fillLoop, hnone]
        rw [List.find?_cons_of_pos]
        simp
      · intro e he
        simp only [fillLoop, hnone] at he
        have hmem := fillLoop_events_mem env answers total rest (idx + 1) e he
        intro hc
        rw [hc] at hmem
        exact hids.1 hmem
    · have hkne : g.key ≠ f.key := by
        intro hc
        exact hkeys.1 (hc ▸ List.mem_map_of_mem Field.key hf2)
      have hine : g.elemId ≠ f.elemId := by
        intro hc
        exact hids.1 (hc ▸ List.mem_map_of_mem Field.elemId hf2)
      have hrec := ih (idx + 1) f hf2 hkeys.2 hids.2 hnone
      cases hfa : find_answer_for_field answers g.candidates with
      | none =>
        constructor
        · simp only [fillLoop, hfa]
          rw [List.find?_cons_of_neg]
          · exact hrec.1
          · simp [hkne]
        · intro e he
          simp only [fillLoop, hfa] at he
          exact hrec.2 e he
      | some av =>
        constructor
        · simp only [fillLoop, hfa]
          rw [List.find?_cons_of_neg]
          · exact hrec.1
          · simp [hkne]
        · intro e he
          simp only [fillLoop, hfa, List.mem_append] at he
          rcases he with he | he
          · rw [fillByType_fst env g av.1 e he]
            exact hine
          · exact hrec.2 e he

/-- Claim C8: for every detected field whose candidate labels match no
answer key exactly, normalized-exactly, or by token overlap ≥ 0.6,
`fill_form` records outcome skipped for that field and performs no
interaction (clear, type, select, click, file-send) on the field's
element. -/
theorem claim_C8_skipped_field_untouched (env : FillEnv) (fields : List Field)
    (answers : List (String × String)) (f : Field)
    (hf : f ∈ fields)
    (hkeys : (fields.map Field.key).Nodup)
    (hids : (fields.map Field.elemId).Nodup)
    (hnone : find_answer_for_field answers f.candidates = none) :
    ((fill_form env fields answers).results.find?
        (fun kv => kv.1 = f.key) = some (f.key, FieldOutcome.skipped)) ∧
      ∀ e ∈ (fill_form env fields answers).events, e.1 ≠ f.elemId :=
  fillLoop_skipped_spec env answers
    (if fields.length = 0 then 1 else fields.length) fields 0 f hf hkeys hids hnone

/-- An environment in which every element interaction succeeds, every
checkbox starts unselected, and every file path exists. -/
def constEnv : FillEnv where
  elemOk := fun _ => true
  elemSelected := fun _ => false
  fileExists := fun _ => true

/-- A phone field whose only candidate label matches nothing in an
answers map containing only a first-name entry. -/
def quuxField : Field where
  key := "f1"
  ftype := "text"
  candidates := ["quux"]
  elemId := 0

/-- The single-entry answers map used in the concrete runs below. -/
def janeAnswers : List (String × String) := [("name", "Jane")]

/-- The candidate "quux" matches nothing in `janeAnswers`: no exact key,
no normalized key, and the token overlap with "name" is 0 < 0.6. -/
theorem findAnswer_quux_none :
    find_answer_for_field janeAnswers ["quux"] = none := by
  have h0 : token_overlap "quux" "name" = 0 :=
    token_overlap_disjoint_eq_zero "quux" "name" (by decide)
  have h1 : ¬ ((3 / 5 : ℚ) ≤ token_overlap "quux" "name") := by
    rw [h0]; norm_num
  simp +decide [find_answer_for_field, janeAnswers, lookupAns, normLookup, h1]

/-- Witness for C8 at a concrete run: the unmatched field is reported
skipped and its element receives no interaction. -/
theorem claim_C8_witness :
    ((fill_form constEnv [quuxField] janeAnswers).results.find?
        (fun kv => kv.1 = quuxField.key) = some (quuxField.key, FieldOutcome.skipped)) ∧
      ∀ e ∈ (fill_form constEnv [quuxField] janeAnswers).events, e.1 ≠ quuxField.elemId :=
  claim_C8_skipped_field_untouched constEnv [quuxField] janeAnswers quuxField
    (by decide) (by decide) (by decide) findAnswer_quux_none

/-- `getLast?` passes over a head when the tail is nonempty. -/
theorem getLast?_cons_of_ne {α : Type} (a : α) (l : List α) (h : l ≠ []) :
    (a :: l).getLast? = l.getLast? := by
  cases l with
  | nil => exact absurd rfl h
  | cons b t => exact List.getLast?_cons_cons

/-- The progress percentages emitted by the fill loop: one per field whose
candidates match some answer, none for skipped fields. -/
theorem fillLoop_progress (env : FillEnv) (answers : List (String × String))
    (total : Nat) : ∀ (fields : List Field) (idx : Nat),
    (fillLoop env answers total fields idx).progress =
      ((List.enumFrom idx fields).filter
          (fun p => (find_answer_for_field answers p.2.candidates).isSome)).map
        (fun p => (p.1 + 1) * 100 / total) := by
  intro fields
  induction fields with
  | nil => intro idx; simp [fillLoop]
  | cons f rest ih =>
    intro idx
    rw [List.enumFrom_cons]
    cases hfa : find_answer_for_field answers f.candidates with
    | none =>
      simp only [fillLoop, hfa, List.filter_cons, Option.isSome_none,
        Bool.false_eq_true, if_neg, reduceIte]
      exact ih (idx + 1)
    | some av =>
      simp only [fillLoop, hfa, List.filter_cons, Option.isSome_some, if_pos,
        reduceIte, List.map_cons]
      rw [ih (idx + 1)]

/-- When every field has a matching answer, the loop emits exactly one
percentage per field. -/
theorem fillLoop_progress_all_len (env : FillEnv)
    (answers : List (String × String)) (total : Nat) :
    ∀ (fields : List Field) (idx : Nat),
    (∀ f ∈ fields, (find_answer_for_field answers f.candidates).isSome) →
    (fillLoop env answers total fields idx).progress.length = fields.length := by
  intro fields
  induction fields with
  | nil => intro idx _; simp [fillLoop]
  | cons f rest ih =>
    intro idx hall
    have hf := hall f (List.mem_cons_self f rest)
    cases hfa : find_answer_for_field answers f.candidates with
    | none => rw [hfa] at hf; simp at hf
    | some av =>
      simp only [fillLoop, hfa, List.length_cons]
      rw [ih (idx + 1) (fun g hg => hall g (List.mem_cons_of_mem f hg))]

/-- When every field has a matching answer, the final emitted percentage
is that of the last field. -/
theorem fillLoop_progress_all_last (env : FillEnv)
    (answers : List (String × String)) (total : Nat) :
    ∀ (fields : List Field) (idx : Nat), fields ≠ [] →
    (∀ f ∈ fields, (find_answer_for_field answers f.candidates).isSome) →
    (fillLoop env answers total fields idx).progress.getLast? =
      some ((idx + fields.length) * 100 / total) := by
  intro fields
  induction fields with
  | nil => intro idx h; exact absurd rfl h
  | cons f rest ih =>
    intro idx _ hall
    have hf := hall f (List.mem_cons_self f rest)
    cases hfa : find_answer_for_field answers f.candidates with
    | none => rw [hfa] at hf; simp at hf
    | some av =>
      simp only [fillLoop, hfa]
      cases rest with
      | nil => simp [fillLoop]
      | cons g t =>
        have hne : (fillLoop env answers total (g :: t) (idx + 1)).progress ≠ [] := by
          have hlen := fillLoop_progress_all_len env answers total (g :: t) (idx + 1)
            (fun x hx => hall x (List.mem_cons_of_mem f hx))
          intro hc
          rw [hc] at hlen
          simp at hlen
        rw [getLast?_cons_of_ne _ _ hne,
          ih (idx + 1) (by simp) (fun x hx => hall x (List.mem_cons_of_mem f hx))]
        have harith : idx + 1 + (g :: t).length = idx + (f :: g :: t).length := by
          simp only [List.length_cons]
          omega
        rw [harith]

/-- Claim C9 (counterexample): with one detected field and no matching
answer the run emits no progress value at all, while the claim requires
one progress value per detected field (ending at 100); emission is skipped
together with the field because the `continue` precedes it. -/
theorem claim_C9_counterexample :
    (fill_form constEnv [quuxField] janeAnswers).progress = [] ∧
      ¬ (fill_form constEnv [quuxField] janeAnswers).progress.length =
          [quuxField].length := by
  have h : (fill_form constEnv [quuxField] janeAnswers).progress = [] := by
    simp only [fill_form, fillLoop,
      show quuxField.candidates = ["quux"] from rfl, findAnswer_quux_none]
  exact ⟨h, by rw [h]; simp⟩

/-- Claim C9 (amended): `fill_form` emits an integer progress value only
after each field whose outcome is ok or failed — a skipped field emits
none — equal to `int((position+1) / total × 100)` where the position
counts all detected fields; consequently when no detected field is
skipped, exactly `n` values are emitted over a run with `n` detected
fields and the last one is 100. -/
theorem claim_C9_progress_emission (env : FillEnv) (fields : List Field)
    (answers : List (String × String)) :
    (fill_form env fields answers).progress =
      ((fields.enum).filter
          (fun p => (find_answer_for_field answers p.2.candidates).isSome)).map
        (fun p => (p.1 + 1) * 100 / (if fields.length = 0 then 1 else fields.length)) ∧
    ((∀ f ∈ fields, (find_answer_for_field answers f.candidates).isSome) →
      (fill_form env fields answers).progress.length = fields.length ∧
      (fields ≠ [] →
        (fill_form env fields answers).progress.getLast? = some 100)) := by
  constructor
  · exact fillLoop_progress env answers _ fields 0
  · intro hall
    constructor
    · exact fillLoop_progress_all_len env answers _ fields 0 hall
    · intro hne
      have hlen : fields.length ≠ 0 := fun hc => hne (List.length_eq_zero.mp hc)
      have h := fillLoop_progress_all_last env answers
        (if fields.length = 0 then 1 else fields.length) fields 0 hne hall
      unfold fill_form
      rw [h, if_neg hlen]
      congr 1
      rw [Nat.zero_add, Nat.mul_comm]
      exact Nat.mul_div_cancel 100 (Nat.pos_of_ne_zero hlen)

/-- A first-name field matched exactly by the answers map. -/
def firstNameField : Field where
  key := "first name"
  ftype := "text"
  candidates := ["first name"]
  elemId := 1

/-- Witness for C9: a run over one matched field emits exactly one
progress value, 100. -/
theorem claim_C9_witness :
    (fill_form constEnv [firstNameField] [("first name", "Jane")]).progress.length = 1 ∧
      (fill_form constEnv [firstNameField] [("first name", "Jane")]).progress.getLast? =
        some 100 := by
  have h := (claim_C9_progress_emission constEnv [firstNameField]
    [("first name", "Jane")]).2 (by decide)
  exact ⟨h.1, h.2 (by simp)⟩

end FormHandler

/-!  Lemmas relating the character-level normalisation pipeline to the
word decomposition, used to show that texts differing only in letter case
and whitespace share one normalized key in the Q&A store. -/

theorem toNat_ofNat_small (n : Nat) (h : n < 55296) : (Char.ofNat n).toNat = n := by
  unfold Char.ofNat
  split
  · rfl
  · next hn => exact absurd (Or.inl h) hn

theorem pyIsSpace_false_of_ge33 (x : Char) (h : 33 ≤ x.toNat) :
    pyIsSpace x = false := by
  unfold pyIsSpace
  have h1 : x ≠ ' ' := fun hc => by rw [hc] at h; exact absurd h (by decide)
  have h2 : x ≠ '\t' := fun hc => by rw [hc] at h; exact absurd h (by decide)
  have h3 : x ≠ '\n' := fun hc => by rw [hc] at h; exact absurd h (by decide)
  have h4 : x ≠ '\r' := fun hc => by rw [hc] at h; exact absurd h (by decide)
  have h5 : x.toNat ≠ 11 := by omega
  have h6 : x.toNat ≠ 12 := by omega
  simp [h1, h2, h3, h4, h5, h6]

/-- Lowercasing never turns a character into whitespace or vice versa. -/
theorem pyIsSpace_pyLowerChar (c : Char) :
    pyIsSpace (pyLowerChar c) = pyIsSpace c := by
  unfold pyLowerChar
  split
  · next h =>
    have hA : 65 ≤ c.toNat := Char.le_def.mp h.1
    have hZ : c.toNat ≤ 90 := Char.le_def.mp h.2
    have hl : (Char.ofNat (c.toNat + 32)).toNat = c.toNat + 32 :=
      toNat_ofNat_small _ (by omega)
    rw [pyIsSpace_false_of_ge33 _ (by rw [hl]; omega),
      pyIsSpace_false_of_ge33 _ (by omega)]
  · rfl

theorem dropWhile_head?_false (p : Char → Bool) (l : List Char) :
    ∀ c, (l.dropWhile p).head? = some c → p c = false := by
  induction l with
  | nil => intro c hc; simp at hc
  | cons d r ih =>
    intro c hc
    by_cases hd : p d
    · rw [List.dropWhile_cons_of_pos hd] at hc
      exact ih c hc
    · rw [List.dropWhile_cons_of_neg hd] at hc
      simp only [List.head?_cons, Option.some.injEq] at hc
      rw [← hc]
      exact Bool.eq_false_iff.mpr hd

theorem getLast?_of_suffix {s l : List Char} (hs : s <:+ l) (hne : s ≠ []) :
    s.getLast? = l.getLast? := by
  obtain ⟨t, rfl⟩ := hs
  exact (List.getLast?_append_of_ne_nil t hne).symm

theorem splitSp_map_lower (l : List Char) :
    splitSp (l.map pyLowerChar) =
      ((splitSp l).1.map pyLowerChar, (splitSp l).2.map (List.map pyLowerChar)) := by
  induction l with
  | nil => rfl
  | cons c r ih =>
    simp only [List.map_cons, splitSp, ih, pyIsSpace_pyLowerChar]
    cases hc : pyIsSpace c <;> simp [hc]

theorem wordsOf_map_lower (l : List Char) :
    wordsOf (l.map pyLowerChar) = (wordsOf l).map (List.map pyLowerChar) := by
  unfold wordsOf
  rw [splitSp_map_lower]
  show ((splitSp l).1.map pyLowerChar ::
      (splitSp l).2.map (List.map pyLowerChar)).filter (fun w => !w.isEmpty) = _
  rw [← List.map_cons, List.filter_map]
  congr 1
  apply List.filter_congr
  intro w _
  simp only [Function.comp]
  cases w <;> simp

theorem wordsOf_cons_space (c : Char) (r : List Char) (h : pyIsSpace c = true) :
    wordsOf (c :: r) = wordsOf r := by
  simp [wordsOf, splitSp, h, List.filter_cons]

theorem wordsOf_dropWhile_space (l : List Char) :
    wordsOf (l.dropWhile pyIsSpace) = wordsOf l := by
  induction l with
  | nil => rfl
  | cons c r ih =>
    by_cases hc : pyIsSpace c
    · rw [List.dropWhile_cons_of_pos hc, ih, wordsOf_cons_space c r hc]
    · rw [List.dropWhile_cons_of_neg hc]

theorem splitSp_append_space (l : List Char) (c : Char) (h : pyIsSpace c = true) :
    splitSp (l ++ [c]) = ((splitSp l).1, (splitSp l).2 ++ [[]]) := by
  induction l with
  | nil => simp [splitSp, h]
  | cons d r ih =>
    simp only [List.cons_append, splitSp, ih]
    cases hd : pyIsSpace d <;> simp [hd, ih]

theorem wordsOf_append_space (l : List Char) (c : Char) (h : pyIsSpace c = true) :
    wordsOf (l ++ [c]) = wordsOf l := by
  unfold wordsOf
  rw [splitSp_append_space l c h, ← List.cons_append, List.filter_append]
  simp

theorem wordsOf_rstrip (l : List Char) :
    wordsOf ((l.reverse.dropWhile pyIsSpace).reverse) = wordsOf l := by
  induction l using List.reverseRecOn with
  | nil => rfl
  | append_singleton m c ih =>
    by_cases hc : pyIsSpace c
    · rw [List.reverse_append]
      simp only [List.reverse_singleton, List.singleton_append,
        List.dropWhile_cons_of_pos hc]
      rw [ih, wordsOf_append_space m c hc]
    · rw [List.reverse_append]
      simp only [List.reverse_singleton, List.singleton_append,
        List.dropWhile_cons_of_neg hc]
      simp

theorem wordsOf_strip (l : List Char) : wordsOf (pyStrip l) = wordsOf l := by
  unfold pyStrip
  rw [wordsOf_rstrip, wordsOf_dropWhile_space]

theorem pyStrip_noTrail (l : List Char) :
    ∀ c, (pyStrip l).getLast? = some c → pyIsSpace c = false := by
  intro c hc
  unfold pyStrip at hc
  rw [List.getLast?_reverse] at hc
  exact dropWhile_head?_false pyIsSpace _ c hc

theorem pyStrip_noLead (l : List Char) :
    ∀ c, (pyStrip l).head? = some c → pyIsSpace c = false := by
  intro c hc
  unfold pyStrip at hc
  rw [List.head?_reverse] at hc
  have hne : (l.dropWhile pyIsSpace).reverse.dropWhile pyIsSpace ≠ [] := by
    intro h0
    rw [h0] at hc
    simp at hc
  rw [getLast?_of_suffix (List.dropWhile_suffix pyIsSpace) hne,
    List.getLast?_reverse] at hc
  exact dropWhile_head?_false pyIsSpace l c hc

/-- Python `' '.join(ws)` on a list of words. -/
def joinWords : List (List Char) → List Char
  | [] => []
  | [w] => w
  | w :: ws => w ++ ' ' :: joinWords ws

theorem getLast?_cons_of_ne2 (a : Char) (l : List Char) (h : l ≠ []) :
    (a :: l).getLast? = l.getLast? := by
  cases l with
  | nil => exact absurd rfl h
  | cons b t => exact List.getLast?_cons_cons

theorem collapse_nospace (u : List Char) : ∀ w : List Char,
    (∀ x ∈ w, pyIsSpace x = false) →
    collapseWs false (w ++ u) = w ++ collapseWs false u := by
  intro w
  induction w with
  | nil => intro _; rfl
  | cons d r ih =>
    intro hall
    have hd : pyIsSpace d = false := hall d (List.mem_cons_self d r)
    calc collapseWs false ((d :: r) ++ u)
        = collapseWs false (d :: (r ++ u)) := by rw [List.cons_append]
      _ = d :: collapseWs false (r ++ u) := by
            simp only [collapseWs, hd, Bool.false_eq_true, reduceIte]
      _ = d :: (r ++ collapseWs false u) := by
            rw [ih (fun x hx => hall x (List.mem_cons_of_mem d hx))]
      _ = (d :: r) ++ collapseWs false u := by rw [List.cons_append]

theorem collapse_true_dropWhile (m : List Char) :
    collapseWs true m = collapseWs false (m.dropWhile pyIsSpace) := by
  induction m with
  | nil => rfl
  | cons c r ih =>
    by_cases hc : pyIsSpace c
    · rw [List.dropWhile_cons_of_pos hc]
      simp only [collapseWs, hc]
      rw [ih]
      simp
    · rw [List.dropWhile_cons_of_neg hc]
      have hc2 : pyIsSpace c = false := Bool.eq_false_iff.mpr hc
      simp [collapseWs, hc2]

theorem splitSp_nospace (u : List Char) : ∀ w : List Char,
    (∀ x ∈ w, pyIsSpace x = false) →
    splitSp (w ++ u) = (w ++ (splitSp u).1, (splitSp u).2) := by
  intro w
  induction w with
  | nil => intro _; rfl
  | cons d r ih =>
    intro hall
    have hd : pyIsSpace d = false := hall d (List.mem_cons_self d r)
    calc splitSp ((d :: r) ++ u)
        = splitSp (d :: (r ++ u)) := by rw [List.cons_append]
      _ = (d :: (splitSp (r ++ u)).1, (splitSp (r ++ u)).2) := by
            simp only [splitSp, hd, Bool.false_eq_true, reduceIte]
      _ = ((d :: r) ++ (splitSp u).1, (splitSp u).2) := by
            rw [ih (fun x hx => hall x (List.mem_cons_of_mem d hx))]
            rw [List.cons_append]

theorem wordsOf_ne_nil (e : Char) (v2 : List Char) (he : pyIsSpace e = false) :
    wordsOf (e :: v2) ≠ [] := by
  simp [wordsOf, splitSp, he, List.filter_cons]

/-- The word decomposition of a nonempty-word prefix followed by the rest:
the prefix becomes the first word. -/
theorem wordsOf_nospace_append (w u : List Char) (hwall : ∀ x ∈ w, pyIsSpace x = false)
    (hwne : w ≠ []) (hu : u = [] ∨ ∃ d u2, u = d :: u2 ∧ pyIsSpace d = true) :
    wordsOf (w ++ u) = w :: wordsOf u := by
  have hsp := splitSp_nospace u w hwall
  rcases hu with rfl | ⟨d, u2, rfl, hd⟩
  · have h1 : splitSp (w ++ []) = (w, []) := by
      rw [hsp]
      simp [splitSp]
    unfold wordsOf
    rw [h1]
    rcases w with _ | ⟨a, as⟩
    · exact absurd rfl hwne
    · simp [splitSp]
  · unfold wordsOf
    rw [hsp]
    have h2 : splitSp (d :: u2) = ([], (splitSp u2).1 :: (splitSp u2).2) := by
      simp [splitSp, hd]
    rw [h2]
    simp only [List.append_nil, List.filter_cons]
    rcases w with _ | ⟨a, as⟩
    · exact absurd rfl hwne
    · simp

/-- On text with no leading and no trailing whitespace, collapsing
whitespace runs is the same as space-joining the word decomposition. -/
theorem collapse_eq_joinWords :
    ∀ (n : Nat) (t : List Char), t.length ≤ n →
    (∀ c, t.head? = some c → pyIsSpace c = false) →
    (∀ c, t.getLast? = some c → pyIsSpace c = false) →
    collapseWs false t = joinWords (wordsOf t) := by
  intro n
  induction n with
  | zero =>
    intro t hlen _ _
    have h0 : t = [] := List.length_eq_zero.mp (Nat.le_zero.mp hlen)
    subst h0
    rfl
  | succ n ih =>
    intro t hlen hlead htrail
    rcases ht : t with _ | ⟨c, r⟩
    · rfl
    · subst ht
      have hc : pyIsSpace c = false := hlead c rfl
      set w := (c :: r).takeWhile (fun x => !pyIsSpace x) with hw
      set u := (c :: r).dropWhile (fun x => !pyIsSpace x) with hu
      have hsplit : w ++ u = c :: r := List.takeWhile_append_dropWhile _ _
      have hwall : ∀ x ∈ w, pyIsSpace x = false := by
        intro x hx
        have hx2 := List.mem_takeWhile_imp hx
        simpa using hx2
      have hwne : w ≠ [] := by
        rw [hw, List.takeWhile_cons_of_pos (by simp [hc])]
        simp
      have hcol : collapseWs false (c :: r) = w ++ collapseWs false u := by
        rw [← hsplit]
        exact collapse_nospace u w hwall
      rcases hu2 : u with _ | ⟨d, u2⟩
      · -- no whitespace at all: t is a single word
        have hwords : wordsOf (c :: r) = [w] := by
          rw [← hsplit, hu2, List.append_nil]
          have h3 := wordsOf_nospace_append w [] hwall hwne (Or.inl rfl)
          rw [List.append_nil] at h3
          rw [h3]
          rfl
        rw [hcol, hwords, hu2]
        simp [collapseWs, joinWords]
      · have hd : pyIsSpace d = true := by
          have h4 : (List.dropWhile (fun x => !pyIsSpace x) (c :: r)).head? = some d := by
            rw [← hu, hu2]
            rfl
          have h5 := dropWhile_head?_false (fun x => !pyIsSpace x) (c :: r) d h4
          simpa using h5
        have hwords : wordsOf (c :: r) = w :: wordsOf u := by
          rw [← hsplit, hu2]
          exact wordsOf_nospace_append w (d :: u2) hwall hwne (Or.inr ⟨d, u2, rfl, hd⟩)
        set v := u2.dropWhile pyIsSpace with hv
        have hune : u ≠ [] := by rw [hu2]; simp
        have hlastu : (c :: r).getLast? = u.getLast? := by
          rw [← hsplit]
          exact List.getLast?_append_of_ne_nil w hune
        have hvne : v ≠ [] := by
          intro h0
          have hall2 : ∀ x ∈ u2, pyIsSpace x = true := List.dropWhile_eq_nil_iff.mp h0
          have huall : ∀ x ∈ u, pyIsSpace x = true := by
            intro x hx
            rw [hu2] at hx
            rcases List.mem_cons.mp hx with rfl | hx2
            · exact hd
            · exact hall2 x hx2
          rcases hlast : u.getLast? with _ | a
          · rw [List.getLast?_eq_none_iff] at hlast
            exact hune hlast
          · have h6 := htrail a (by rw [hlastu, hlast])
            rw [huall a (List.mem_of_mem_getLast? hlast)] at h6
            exact absurd h6 (by simp)
        have hvhead : ∀ x, v.head? = some x → pyIsSpace x = false := by
          intro x hx
          rw [hv] at hx
          exact dropWhile_head?_false pyIsSpace u2 x hx
        have hu2ne : u2 ≠ [] := by
          intro h0
          rw [h0] at hv
          simp at hv
          exact hvne hv
        have hvlen : v.length ≤ n := by
          have h1 : v.length ≤ u2.length := (List.dropWhile_suffix pyIsSpace).length_le
          have h2 : w.length + u.length = r.length + 1 := by
            have h7 := congrArg List.length hsplit
            simpa using h7
          have h3 : 1 ≤ w.length := by
            rcases w with _ | _
            · exact absurd rfl hwne
            · simp
          have h4 : u.length = u2.length + 1 := by rw [hu2]; rfl
          have h5 : r.length + 1 ≤ n + 1 := by simpa using hlen
          omega
        have hvtrail : ∀ x, v.getLast? = some x → pyIsSpace x = false := by
          intro x hx
          have h1 : u2.getLast? = some x := by
            rw [← getLast?_of_suffix (List.dropWhile_suffix pyIsSpace) hvne]
            exact hx
          apply htrail x
          rw [hlastu, hu2, getLast?_cons_of_ne2 d u2 hu2ne]
          exact h1
        have hih := ih v hvlen hvhead hvtrail
        have hcolu : collapseWs false u = ' ' :: collapseWs false v := by
          rw [hu2]
          simp only [collapseWs, hd, reduceIte]
          rw [collapse_true_dropWhile u2]
          simp
        have hwordsu : wordsOf u = wordsOf v := by
          rw [hu2, wordsOf_cons_space d u2 hd, hv, wordsOf_dropWhile_space]
        have hwvne : wordsOf v ≠ [] := by
          rcases hv2 : v with _ | ⟨e, v2⟩
          · exact absurd hv2 hvne
          · have he : pyIsSpace e = false := hvhead e (by rw [hv2]; rfl)
            exact wordsOf_ne_nil e v2 he
        rw [hcol, hcolu, hih, hwords, hwordsu]
        rcases hwv : wordsOf v with _ | ⟨x, xs⟩
        · exact absurd hwv hwvne
        · rfl

/-- The normalisation used by `FormHandler._normalize` and the first stage
of `QADatabase._normalize_question` is the space-join of the lowercased
words of the input. -/
theorem normalizeWs_eq_joinWords (s : List Char) :
    normalizeWs s = joinWords ((wordsOf s).map (List.map pyLowerChar)) := by
  unfold normalizeWs
  have hlead : ∀ c, ((pyStrip s).map pyLowerChar).head? = some c →
      pyIsSpace c = false := by
    intro c hc
    rw [List.head?_map] at hc
    rcases h0 : (pyStrip s).head? with _ | c0
    · rw [h0] at hc; simp at hc
    · rw [h0] at hc
      simp at hc
      rw [← hc, pyIsSpace_pyLowerChar]
      exact pyStrip_noLead s c0 h0
  have htrail : ∀ c, ((pyStrip s).map pyLowerChar).getLast? = some c →
      pyIsSpace c = false := by
    intro c hc
    rw [List.getLast?_map] at hc
    rcases h0 : (pyStrip s).getLast? with _ | c0
    · rw [h0] at hc; simp at hc
    · rw [h0] at hc
      simp at hc
      rw [← hc, pyIsSpace_pyLowerChar]
      exact pyStrip_noTrail s c0 h0
  rw [collapse_eq_joinWords ((pyStrip s).map pyLowerChar).length _ (le_refl _)
    hlead htrail]
  rw [wordsOf_map_lower, wordsOf_strip]

/-- Filtering characters (keeping spaces) commutes with space-joining. -/
theorem filter_joinWords (p : Char → Bool) (hp : p ' ' = true) :
    ∀ ws : List (List Char),
    (joinWords ws).filter p = joinWords (ws.map (List.filter p)) := by
  intro ws
  induction ws with
  | nil => rfl
  | cons w ws ih =>
    cases ws with
    | nil => rfl
    | cons x xs =>
      show (w ++ ' ' :: joinWords (x :: xs)).filter p = _
      rw [List.filter_append, List.filter_cons]
      simp only [hp, reduceIte]
      rw [ih]
      rfl

namespace QADatabase

/-- `QADatabase._normalize_question`: lowercase, strip, collapse
whitespace, then delete every character outside `\\w` and `\\s`. -/
def normalize_question (s : List Char) : List Char :=
  (normalizeWs s).filter (fun c => pyIsWordChar c || pyIsSpace c)

/-- The normalized question as a function of the word decomposition. -/
theorem normalize_question_eq_words (s : List Char) :
    normalize_question s =
      joinWords ((wordsOf s).map (fun w =>
        (w.map pyLowerChar).filter (fun c => pyIsWordChar c || pyIsSpace c))) := by
  unfold normalize_question
  rw [normalizeWs_eq_joinWords, filter_joinWords _ (by decide), List.map_map]
  rfl

/-- Two texts differ only by letter case and amount of whitespace: their
whitespace-delimited word sequences agree after lowercasing. -/
def caseWsEquiv (a b : List Char) : Prop :=
  (wordsOf a).map (List.map pyLowerChar) = (wordsOf b).map (List.map pyLowerChar)

instance caseWsEquiv.decidable (a b : List Char) : Decidable (caseWsEquiv a b) :=
  inferInstanceAs (Decidable (_ = _))

/-- Texts differing only by case and whitespace have the same normalized
key. -/
theorem normalize_question_congr (a b : List Char) (h : caseWsEquiv a b) :
    normalize_question a = normalize_question b := by
  rw [normalize_question_eq_words, normalize_question_eq_words]
  have hsplit : ∀ l : List (List Char),
      l.map (fun w => (w.map pyLowerChar).filter
        (fun c => pyIsWordChar c || pyIsSpace c)) =
      (l.map (List.map pyLowerChar)).map
        (List.filter (fun c => pyIsWordChar c || pyIsSpace c)) := by
    intro l
    rw [List.map_map]
    rfl
  rw [hsplit, hsplit, h]

/-- Lexicographic (code-point) order on strings, as Python `sorted` uses. -/
def lexLt : List Char → List Char → Bool
  | [], [] => false
  | [], _ :: _ => true
  | _ :: _, [] => false
  | a :: as, b :: bs => if a < b then true else if b < a then false else lexLt as bs

/-- One step of the stable insertion modelling Python `sorted`. -/
def insertWord (w : List Char) : List (List Char) → List (List Char)
  | [] => [w]
  | x :: xs => if lexLt w x then w :: x :: xs else x :: insertWord w xs

/-- Python `sorted` on a list of strings. -/
def sortWords : List (List Char) → List (List Char)
  | [] => []
  | w :: ws => insertWord w (sortWords ws)

/-- `QADatabase._calculate_similarity_hash` up to the md5 truncation,
which is modelled as injective: the space-join of the sorted first four
significant (longer than 3 characters) words of the normalized question. -/
def similarityKey (s : List Char) : List Char :=
  joinWords (sortWords (((wordsOf (normalize_question s)).filter
    (fun w => 3 < w.length)).take 4))

theorem similarityKey_of_normalize (a b : List Char)
    (h : normalize_question a = normalize_question b) :
    similarityKey a = similarityKey b := by
  unfold similarityKey
  rw [h]

/-- The word set used by `_fuzzy_similarity`. -/
def qWordSet (s : List Char) : Finset (List Char) :=
  (wordsOf (normalize_question s)).toFinset

/-- `QADatabase._fuzzy_similarity`: word-based Jaccard similarity. -/
def fuzzy_similarity (t1 t2 : String) : ℚ :=
  let w1 := qWordSet t1.data
  let w2 := qWordSet t2.data
  if w1 = ∅ ∨ w2 = ∅ then 0
  else
    if 0 < (w1 ∪ w2).card then
      ((w1 ∩ w2).card : ℚ) / (((w1 ∪ w2).card : ℕ) : ℚ)
    else 0

/-- Evaluation helper for `fuzzy_similarity` at concrete inputs. -/
theorem fuzzy_similarity_eval (a b : String) (i u : ℕ)
    (h1 : ¬ (qWordSet a.data = ∅ ∨ qWordSet b.data = ∅))
    (hi : (qWordSet a.data ∩ qWordSet b.data).card = i)
    (hu : (qWordSet a.data ∪ qWordSet b.data).card = u)
    (hupos : 0 < u) :
    fuzzy_similarity a b = (i : ℚ) / (u : ℚ) := by
  simp only [fuzzy_similarity, if_neg h1, hi, hu, if_pos hupos]

/-- A row of the `question_bank` table (the `id` surrogate key is
omitted; timestamps are abstract ticks). -/
structure Row where
  question : String
  question_normalized : List Char
  answer : String
  job_title : String
  company : String
  job_context : String
  created_at : Nat
  last_used : Nat
  times_used : Nat
  similarity_hash : List Char
deriving DecidableEq

/-- The `DO UPDATE SET` clause of `store_question`: refresh the answer and
job fields, bump `times_used`, set `last_used` to the call time; the
stored question text, `created_at` and `similarity_hash` are left as they
were. -/
def updateRow (t : Nat) (answer job_title company job_context : String)
    (r : Row) : Row :=
  { r with
    answer := answer
    job_title := job_title
    company := company
    job_context := job_context
    times_used := r.times_used + 1
    last_used := t }

/-- The freshly inserted row (`times_used` defaults to 1, `created_at` to
the current timestamp). -/
def newRow (t : Nat) (question answer job_title company job_context : String) :
    Row where
  question := question
  question_normalized := normalize_question question.data
  answer := answer
  job_title := job_title
  company := company
  job_context := job_context
  created_at := t
  last_used := t
  times_used := 1
  similarity_hash := similarityKey question.data

/-- Whether the table holds a row with the given normalized key. -/
def hasKey (db : List Row) (k : List Char) : Bool :=
  db.any (fun r => r.question_normalized = k)

/-- `QADatabase.store_question`: `INSERT ... ON CONFLICT(question_normalized)
DO UPDATE SET ...` over the row list, with `datetime.now()` passed in as
`t`. -/
def store_question (db : List Row) (t : Nat)
    (question answer job_title company job_context : String) : List Row :=
  let k := normalize_question question.data
  if hasKey db k then
    db.map (fun r => if r.question_normalized = k then
      updateRow t answer job_title company job_context r else r)
  else
    db ++ [newRow t question answer job_title company job_context]

theorem hasKey_store (db : List Row) (t : Nat) (q a jt c jc : String) :
    hasKey (store_question db t q a jt c jc) (normalize_question q.data) = true := by
  unfold store_question
  by_cases h : hasKey db (normalize_question q.data) = true
  · rw [if_pos h]
    unfold hasKey at h ⊢
    rw [List.any_eq_true] at h ⊢
    obtain ⟨r, hr, hm⟩ := h
    rw [decide_eq_true_iff] at hm
    refine ⟨if r.question_normalized = normalize_question q.data then
        updateRow t a jt c jc r else r, List.mem_map_of_mem _ hr, ?_⟩
    rw [if_pos hm]
    simp [updateRow, hm]
  · rw [if_neg h]
    unfold hasKey
    rw [List.any_eq_true]
    refine ⟨newRow t q a jt c jc, by simp, by simp [newRow]⟩

theorem store_fields_of_key (db : List Row) (t : Nat) (q a jt c jc : String) :
    ∀ r ∈ store_question db t q a jt c jc,
      r.question_normalized = normalize_question q.data →
      r.answer = a ∧ r.job_title = jt ∧ r.company = c ∧ r.job_context = jc := by
  intro r hr hkey
  unfold store_question at hr
  by_cases h : hasKey db (normalize_question q.data) = true
  · rw [if_pos h] at hr
    obtain ⟨r0, hr0, heq⟩ := List.mem_map.mp hr
    by_cases hm : r0.question_normalized = normalize_question q.data
    · rw [if_pos hm] at heq
      rw [← heq]
      simp [updateRow]
    · rw [if_neg hm] at heq
      rw [← heq] at hkey
      exact absurd hkey hm
  · rw [if_neg h] at hr
    rcases List.mem_append.mp hr with hin | hnew
    · exfalso
      apply h
      unfold hasKey
      rw [List.any_eq_true]
      exact ⟨r, hin, by simp [hkey]⟩
    · simp only [List.mem_singleton] at hnew
      rw [hnew]
      simp [newRow]

theorem store_question_of_hasKey (db : List Row) (t : Nat) (q a jt c jc : String)
    (h : hasKey db (normalize_question q.data) = true) :
    store_question db t q a jt c jc =
      db.map (fun r => if r.question_normalized = normalize_question q.data then
        updateRow t a jt c jc r else r) := by
  unfold store_question
  simp only [h, if_true]

theorem store_length_of_hasKey (db : List Row) (t : Nat) (q a jt c jc : String)
    (h : hasKey db (normalize_question q.data) = true) :
    (store_question db t q a jt c jc).length = db.length := by
  unfold store_question
  rw [if_pos h]
  exact List.length_map _ _

/-- The row update asserted by claim C5 as stated: only `times_used`
changes.  (Modelled from the claim's words, for comparison with the
code's upsert.) -/
def bumpTimesUsed (r : Row) : Row := { r with times_used := r.times_used + 1 }

/-- Claim C5 (counterexample): storing the identical (question, answer)
pair twice does not leave the row unchanged except `times_used` — the
upsert also refreshes `last_used` to the call's timestamp, so two calls at
distinct times differ from the claimed times_used-only bump. -/
theorem claim_C5_counterexample :
    ¬ (store_question (store_question [] 0 "Are you authorized?" "Yes" "" "" "") 1
        "Are you authorized?" "Yes" "" "" "" =
      (store_question [] 0 "Are you authorized?" "Yes" "" "" "").map bumpTimesUsed) := by
  decide

/-- Claim C5 (amended): calling `store_question` again with an identical
(question, answer, job fields) tuple leaves every stored row unchanged
except the row with the question's normalized key, whose `times_used`
increases by one and whose `last_used` is refreshed to the call's
timestamp; and storing two question texts that differ only by letter case
and/or whitespace never creates a second row, because both normalize to
one unique key. -/
theorem claim_C5_store_upsert :
    (∀ (db : List Row) (t1 t2 : Nat) (q a jt c jc : String),
      store_question (store_question db t1 q a jt c jc) t2 q a jt c jc =
        (store_question db t1 q a jt c jc).map
          (fun r => if r.question_normalized = normalize_question q.data then
              { r with times_used := r.times_used + 1, last_used := t2 } else r)) ∧
    (∀ (db : List Row) (t1 t2 : Nat) (qa qb a1 a2 jt1 jt2 c1 c2 jc1 jc2 : String),
      caseWsEquiv qa.data qb.data →
      (store_question (store_question db t1 qa a1 jt1 c1 jc1) t2 qb a2 jt2 c2 jc2).length =
        (store_question db t1 qa a1 jt1 c1 jc1).length) := by
  constructor
  · intro db t1 t2 q a jt c jc
    have hkey := hasKey_store db t1 q a jt c jc
    rw [store_question_of_hasKey (store_question db t1 q a jt c jc) t2 q a jt c jc hkey]
    apply List.map_congr_left
    intro r hr
    by_cases hm : r.question_normalized = normalize_question q.data
    · rw [if_pos hm, if_pos hm]
      obtain ⟨h1, h2, h3, h4⟩ := store_fields_of_key db t1 q a jt c jc r hr hm
      subst h1
      subst h2
      subst h3
      subst h4
      cases r
      rfl
    · rw [if_neg hm, if_neg hm]
  · intro db t1 t2 qa qb a1 a2 jt1 jt2 c1 c2 jc1 jc2 h
    have hn := normalize_question_congr qa.data qb.data h
    apply store_length_of_hasKey
    rw [← hn]
    exact hasKey_store db t1 qa a1 jt1 c1 jc1

/-- Witness for C5 at concrete inputs: the repeated-store shape at
("First Name", "Jane"), and no second row when re-storing as
"FIRST  name" (case and whitespace variation only). -/
theorem claim_C5_witness :
    store_question (store_question [] 0 "First Name" "Jane" "" "" "") 1
        "First Name" "Jane" "" "" "" =
      (store_question [] 0 "First Name" "Jane" "" "" "").map
        (fun r => if r.question_normalized = normalize_question "First Name".data then
            { r with times_used := r.times_used + 1, last_used := 1 } else r) ∧
    (store_question (store_question [] 0 "First Name" "Jane" "" "" "") 1
        "FIRST  name" "Jane Q" "" "" "").length = 1 := by
  constructor
  · exact claim_C5_store_upsert.1 [] 0 1 "First Name" "Jane" "" "" ""
  · rw [claim_C5_store_upsert.2 [] 0 1 "First Name" "FIRST  name" "Jane" "Jane Q"
      "" "" "" "" "" "" (by decide)]
    decide

/-- The ordering used by the lookup queries (`ORDER BY times_used DESC,
last_used DESC`): whether `a` sorts strictly before `b`. -/
def rowBefore (a b : Row) : Bool :=
  b.times_used < a.times_used ||
    (a.times_used = b.times_used && b.last_used < a.last_used)

/-- Stable insertion for the row ordering. -/
def insertRow (r : Row) : List Row → List Row
  | [] => [r]
  | x :: xs => if rowBefore r x then r :: x :: xs else x :: insertRow r xs

/-- The row list in query order (SQLite leaves ties in an unspecified
order; the model uses a stable sort). -/
def sortRows : List Row → List Row
  | [] => []
  | r :: rs => insertRow r (sortRows rs)

theorem mem_insertRow (x r : Row) : ∀ l : List Row,
    x ∈ insertRow r l ↔ x = r ∨ x ∈ l := by
  intro l
  induction l with
  | nil => simp [insertRow]
  | cons y ys ih =>
    unfold insertRow
    by_cases h : rowBefore r y = true
    · simp [h]
    · simp [h, ih]
      tauto

theorem mem_sortRows (x : Row) : ∀ l : List Row, x ∈ sortRows l ↔ x ∈ l := by
  intro l
  induction l with
  | nil => simp [sortRows]
  | cons y ys ih =>
    unfold sortRows
    rw [mem_insertRow, ih, List.mem_cons]

/-- The `SELECT * WHERE question_normalized = ? ORDER BY ... LIMIT 1`
query of `find_similar_question`. -/
def exactMatches (db : List Row) (q : String) : List Row :=
  sortRows (db.filter (fun r => r.question_normalized = normalize_question q.data))

/-- The `SELECT * WHERE similarity_hash = ? ORDER BY ... LIMIT 5` query of
`find_similar_question`: only the top five rows of the bucket are
scanned. -/
def bucketCandidates (db : List Row) (q : String) : List Row :=
  (sortRows (db.filter (fun r => r.similarity_hash = similarityKey q.data))).take 5

/-- The candidate scan of `find_similar_question`: keep the candidate iff
its score strictly beats the best so far and reaches the threshold. -/
def bestStep (q : String) (threshold : ℚ) (acc : Option Row × ℚ) (cand : Row) :
    Option Row × ℚ :=
  if acc.2 < fuzzy_similarity q cand.question ∧
      threshold ≤ fuzzy_similarity q cand.question then
    (some cand, fuzzy_similarity q cand.question)
  else acc

/-- `QADatabase.find_similar_question(question, threshold)`: exact
normalized match first, then the best fuzzy match among the top five
same-bucket candidates. -/
def find_similar_question (db : List Row) (q : String) (threshold : ℚ) :
    Option Row :=
  match (exactMatches db q).head? with
  | some r => some r
  | none => ((bucketCandidates db q).foldl (bestStep q threshold) (none, 0)).1

theorem foldl_bestStep_none (q : String) (θ : ℚ) :
    ∀ (cands : List Row) (acc : Option Row × ℚ),
    (∀ c ∈ cands, ¬ (θ ≤ fuzzy_similarity q c.question)) →
    List.foldl (bestStep q θ) acc cands = acc := by
  intro cands
  induction cands with
  | nil => intro acc _; rfl
  | cons c cs ih =>
    intro acc hall
    rw [List.foldl_cons]
    have hstep : bestStep q θ acc c = acc := by
      unfold bestStep
      rw [if_neg]
      intro hc
      exact hall c (List.mem_cons_self c cs) hc.2
    rw [hstep]
    exact ih acc (fun x hx => hall x (List.mem_cons_of_mem c hx))

theorem foldl_bestStep_mono (q : String) (θ : ℚ) :
    ∀ (cands : List Row) (acc : Option Row × ℚ),
    acc.2 ≤ (List.foldl (bestStep q θ) acc cands).2 := by
  intro cands
  induction cands with
  | nil => intro acc; exact le_refl _
  | cons c cs ih =>
    intro acc
    rw [List.foldl_cons]
    refine le_trans ?_ (ih (bestStep q θ acc c))
    unfold bestStep
    by_cases hc : acc.2 < fuzzy_similarity q c.question ∧
        θ ≤ fuzzy_similarity q c.question
    · rw [if_pos hc]
      exact le_of_lt hc.1
    · rw [if_neg hc]

theorem foldl_bestStep_some (q : String) (θ : ℚ) :
    ∀ (cands : List Row) (acc : Option Row × ℚ) (r : Row),
    (List.foldl (bestStep q θ) acc cands).1 = some r →
    (acc.1 = some r ∧ acc.2 = (List.foldl (bestStep q θ) acc cands).2) ∨
    (r ∈ cands ∧
      (List.foldl (bestStep q θ) acc cands).2 = fuzzy_similarity q r.question ∧
      θ ≤ fuzzy_similarity q r.question) := by
  intro cands
  induction cands with
  | nil => intro acc r h; exact Or.inl ⟨h, rfl⟩
  | cons c cs ih =>
    intro acc r h
    rw [List.foldl_cons] at h ⊢
    rcases ih (bestStep q θ acc c) r h with ⟨h1, h2⟩ | ⟨h1, h2, h3⟩
    · by_cases hc : acc.2 < fuzzy_similarity q c.question ∧
          θ ≤ fuzzy_similarity q c.question
      · have hstep : bestStep q θ acc c = (some c, fuzzy_similarity q c.question) := by
          unfold bestStep
          rw [if_pos hc]
        rw [hstep] at h1 h2 ⊢
        simp only [Option.some.injEq] at h1
        subst h1
        exact Or.inr ⟨List.mem_cons_self c cs, h2.symm, hc.2⟩
      · have hstep : bestStep q θ acc c = acc := by
          unfold bestStep
          rw [if_neg hc]
        rw [hstep] at h1 h2 ⊢
        exact Or.inl ⟨h1, h2⟩
    · exact Or.inr ⟨List.mem_cons_of_mem c h1, h2, h3⟩

theorem foldl_bestStep_all_le (q : String) (θ : ℚ) :
    ∀ (cands : List Row) (acc : Option Row × ℚ) (c : Row), c ∈ cands →
    fuzzy_similarity q c.question ≤ (List.foldl (bestStep q θ) acc cands).2 ∨
    fuzzy_similarity q c.question < θ := by
  intro cands
  induction cands with
  | nil => intro acc c hc; exact absurd hc (List.not_mem_nil c)
  | cons d ds ih =>
    intro acc c hc
    rw [List.foldl_cons]
    rcases List.mem_cons.mp hc with rfl | hc2
    · by_cases hd : acc.2 < fuzzy_similarity q c.question ∧
          θ ≤ fuzzy_similarity q c.question
      · left
        have h1 : (bestStep q θ acc c).2 = fuzzy_similarity q c.question := by
          unfold bestStep
          rw [if_pos hd]
        rw [← h1]
        exact foldl_bestStep_mono q θ ds (bestStep q θ acc c)
      · rw [not_and_or, not_lt, not_le] at hd
        rcases hd with hd | hd
        · left
          have h1 : bestStep q θ acc c = acc := by
            unfold bestStep
            rw [if_neg (fun h2 => absurd h2.1 (not_lt.mpr hd))]
          rw [h1]
          exact le_trans hd (foldl_bestStep_mono q θ ds acc)
        · right; exact hd
    · exact ih (bestStep q θ acc d) c hc2

/-- Once the accumulator of the candidate scan holds a row it keeps
holding one: `bestStep` either replaces the row or leaves the
accumulator alone. -/
theorem foldl_bestStep_isSome (q : String) (θ : ℚ) :
    ∀ (cands : List Row) (acc : Option Row × ℚ),
    acc.1.isSome = true →
    (List.foldl (bestStep q θ) acc cands).1.isSome = true := by
  intro cands
  induction cands with
  | nil => intro acc h; exact h
  | cons c cs ih =>
    intro acc h
    rw [List.foldl_cons]
    refine ih (bestStep q θ acc c) ?_
    unfold bestStep
    split_ifs
    · rfl
    · exact h

/-- If the candidate scan ends with no row selected, no step ever fired,
so the whole fold is the identity on the accumulator. -/
theorem foldl_bestStep_of_none (q : String) (θ : ℚ) :
    ∀ (cands : List Row) (acc : Option Row × ℚ),
    (List.foldl (bestStep q θ) acc cands).1 = none →
    List.foldl (bestStep q θ) acc cands = acc := by
  intro cands
  induction cands with
  | nil => intro acc _; rfl
  | cons c cs ih =>
    intro acc h
    rw [List.foldl_cons] at h ⊢
    by_cases hc : acc.2 < fuzzy_similarity q c.question ∧
        θ ≤ fuzzy_similarity q c.question
    · exfalso
      have hstep : bestStep q θ acc c = (some c, fuzzy_similarity q c.question) := by
        unfold bestStep
        rw [if_pos hc]
      rw [hstep] at h
      have h2 := foldl_bestStep_isSome q θ cs
        (some c, fuzzy_similarity q c.question) rfl
      rw [h] at h2
      simp at h2
    · have hstep : bestStep q θ acc c = acc := by
        unfold bestStep
        rw [if_neg hc]
      rw [hstep] at h ⊢
      exact ih acc h

/-- Claim C6 (amended): provided every stored row's normalized key and
bucket hash were computed from its stored question (as `store_question`
guarantees), `find_similar_question` never returns an entry whose bucket
differs from the query's; and when there is no exact normalized match, a
returned entry is one of the top five same-bucket rows by usage order,
its similarity reaches the threshold and is maximal among those five
candidates, if none of those five reaches the threshold the result is
null, and conversely if one of those five reaches the threshold with a
positive similarity, some entry is returned — by the previous conjunct
necessarily a best one.  (The original claim quantified over the whole
bucket; the `LIMIT 5` in the candidate query restricts the scan to the
top five rows by `times_used`/`last_used`.  The positivity proviso
mirrors the scan's `score > best_score` seed of 0.0: a candidate of
similarity 0 is never selected even when the threshold is 0.) -/
theorem claim_C6_find_similar_bucketed (db : List Row) (q : String) (θ : ℚ)
    (hwf : ∀ r ∈ db, r.question_normalized = normalize_question r.question.data ∧
      r.similarity_hash = similarityKey r.question.data) :
    (∀ r, find_similar_question db q θ = some r →
      r.similarity_hash = similarityKey q.data) ∧
    ((exactMatches db q).head? = none →
      (∀ r, find_similar_question db q θ = some r →
        r ∈ bucketCandidates db q ∧ θ ≤ fuzzy_similarity q r.question ∧
        ∀ c ∈ bucketCandidates db q,
          fuzzy_similarity q c.question ≤ fuzzy_similarity q r.question) ∧
      ((∀ c ∈ bucketCandidates db q, fuzzy_similarity q c.question < θ) →
        find_similar_question db q θ = none) ∧
      ((∃ c ∈ bucketCandidates db q, θ ≤ fuzzy_similarity q c.question ∧
          0 < fuzzy_similarity q c.question) →
        ∃ r, find_similar_question db q θ = some r)) := by
  constructor
  · intro r hr
    unfold find_similar_question at hr
    cases hex : (exactMatches db q).head? with
    | some e =>
      rw [hex] at hr
      simp only [Option.some.injEq] at hr
      subst hr
      have hmem : e ∈ exactMatches db q := List.mem_of_mem_head? hex
      unfold exactMatches at hmem
      rw [mem_sortRows] at hmem
      have hdb := (List.mem_filter.mp hmem).1
      have hnorm := (List.mem_filter.mp hmem).2
      rw [decide_eq_true_iff] at hnorm
      obtain ⟨hqn, hsh⟩ := hwf e hdb
      rw [hsh]
      exact similarityKey_of_normalize e.question.data q.data (hqn.symm.trans hnorm)
    | none =>
      rw [hex] at hr
      rcases foldl_bestStep_some q θ (bucketCandidates db q) (none, 0) r hr with
        ⟨h1, _⟩ | ⟨h1, _, _⟩
      · exact absurd h1 (by simp)
      · have h2 := List.mem_of_mem_take h1
        rw [mem_sortRows] at h2
        have h3 := (List.mem_filter.mp h2).2
        rw [decide_eq_true_iff] at h3
        exact h3
  · intro hex
    constructor
    · intro r hr
      unfold find_similar_question at hr
      rw [hex] at hr
      rcases foldl_bestStep_some q θ (bucketCandidates db q) (none, 0) r hr with
        ⟨h1, _⟩ | ⟨h1, h2, h3⟩
      · exact absurd h1 (by simp)
      · refine ⟨h1, h3, ?_⟩
        intro c hc
        rcases foldl_bestStep_all_le q θ (bucketCandidates db q) (none, 0) c hc with
          h4 | h4
        · rw [h2] at h4
          exact h4
        · exact le_of_lt (lt_of_lt_of_le h4 h3)
    constructor
    · intro hall
      unfold find_similar_question
      rw [hex, foldl_bestStep_none q θ (bucketCandidates db q) (none, 0)
        (fun c hc => not_le.mpr (hall c hc))]
    · rintro ⟨c, hc, hθ, hpos⟩
      unfold find_similar_question
      rw [hex]
      show ∃ r,
        (List.foldl (bestStep q θ) (none, 0) (bucketCandidates db q)).1 = some r
      cases hF : (List.foldl (bestStep q θ) (none, 0) (bucketCandidates db q)).1 with
      | some r => exact ⟨r, rfl⟩
      | none =>
        exfalso
        have heq := foldl_bestStep_of_none q θ (bucketCandidates db q) (none, 0) hF
        have h2 : (List.foldl (bestStep q θ) (none, 0) (bucketCandidates db q)).2 = 0 := by
          rw [heq]
        rcases foldl_bestStep_all_le q θ (bucketCandidates db q) (none, 0) c hc with
          h3 | h3
        · rw [h2] at h3
          exact absurd h3 (not_le.mpr hpos)
        · exact absurd h3 (not_lt.mpr hθ)

/-- A well-formed row as `store_question` creates it: normalized key and
bucket hash computed from the stored question. -/
def mkRow (q a : String) (tu lu : Nat) : Row where
  question := q
  question_normalized := normalize_question q.data
  answer := a
  job_title := ""
  company := ""
  job_context := ""
  created_at := 0
  last_used := lu
  times_used := tu
  similarity_hash := similarityKey q.data

/-- Six rows sharing the bucket of significant words {alpha, beta}: five
heavily used rows of similarity 2/5 to the query below, and one rarely
used row of similarity 3/4. -/
def db6 : List Row :=
  [mkRow "alpha beta aa ab" "A1" 10 0, mkRow "alpha beta ac ad" "A2" 9 0,
   mkRow "alpha beta ae af" "A3" 8 0, mkRow "alpha beta ag ah" "A4" 7 0,
   mkRow "alpha beta ai aj" "A5" 6 0, mkRow "alpha beta yy zz" "A6" 1 0]

/-- The five rows the candidate query actually scans for the query
"alpha beta zz": the most-used five, excluding the best-matching row. -/
theorem db6_candidates :
    bucketCandidates db6 "alpha beta zz" =
      [mkRow "alpha beta aa ab" "A1" 10 0, mkRow "alpha beta ac ad" "A2" 9 0,
       mkRow "alpha beta ae af" "A3" 8 0, mkRow "alpha beta ag ah" "A4" 7 0,
       mkRow "alpha beta ai aj" "A5" 6 0] := by
  decide

/-- Every scanned candidate has similarity 2/5 to the query. -/
theorem db6_scores : ∀ c ∈ bucketCandidates db6 "alpha beta zz",
    fuzzy_similarity "alpha beta zz" c.question = 2 / 5 := by
  rw [db6_candidates]
  intro c hc
  simp only [List.mem_cons, List.not_mem_nil, or_false] at hc
  rcases hc with rfl | rfl | rfl | rfl | rfl <;>
    · rw [fuzzy_similarity_eval _ _ 2 5 (by decide) (by decide) (by decide)
        (by norm_num)]
      norm_num

/-- Claim C6 (counterexample): for the query "alpha beta zz" with
threshold 1/2, the stored row "alpha beta yy zz" is in the query's bucket
with similarity 3/4 ≥ 1/2 — the highest in the bucket — yet
`find_similar_question` returns `none`, because that row is not among the
top five bucket rows by usage (`LIMIT 5`) and the five scanned rows all
score 2/5 < 1/2. -/
theorem claim_C6_counterexample :
    find_similar_question db6 "alpha beta zz" (1 / 2) = none ∧
    mkRow "alpha beta yy zz" "A6" 1 0 ∈ db6 ∧
    (mkRow "alpha beta yy zz" "A6" 1 0).similarity_hash =
      similarityKey "alpha beta zz".data ∧
    (1 / 2 : ℚ) ≤ fuzzy_similarity "alpha beta zz" "alpha beta yy zz" := by
  have hex : (exactMatches db6 "alpha beta zz").head? = none := by decide
  have hnone : find_similar_question db6 "alpha beta zz" (1 / 2) = none := by
    unfold find_similar_question
    rw [hex, foldl_bestStep_none _ _ (bucketCandidates db6 "alpha beta zz") (none, 0)
      (fun c hc => by rw [db6_scores c hc]; norm_num)]
  refine ⟨hnone, by decide, by decide, ?_⟩
  rw [fuzzy_similarity_eval "alpha beta zz" "alpha beta yy zz" 3 4 (by decide)
    (by decide) (by decide) (by norm_num)]
  norm_num

/-- Witness for C6 at the concrete store: with threshold 3/4 every
scanned candidate scores below threshold and the amended theorem yields
`none`; with threshold 1/3 the scanned candidates reach the threshold
with positive similarity and the theorem yields a returned row. -/
theorem claim_C6_witness :
    find_similar_question db6 "alpha beta zz" (3 / 4) = none ∧
    ∃ r, find_similar_question db6 "alpha beta zz" (1 / 3) = some r := by
  constructor
  · have h := (claim_C6_find_similar_bucketed db6 "alpha beta zz" (3 / 4)
      (by decide)).2 (by decide)
    exact h.2.1 (fun c hc => by rw [db6_scores c hc]; norm_num)
  · have h := (claim_C6_find_similar_bucketed db6 "alpha beta zz" (1 / 3)
      (by decide)).2 (by decide)
    have hmem : mkRow "alpha beta aa ab" "A1" 10 0 ∈
        bucketCandidates db6 "alpha beta zz" := by
      rw [db6_candidates]
      exact List.mem_cons_self _ _
    refine h.2.2 ⟨mkRow "alpha beta aa ab" "A1" 10 0, hmem, ?_, ?_⟩
    · rw [db6_scores _ hmem]
      norm_num
    · rw [db6_scores _ hmem]
      norm_num

end QADatabase

namespace AutomationManager

/-- What the page offers at one iteration of the `submit_application`
button loop: the text of the first displayed-and-enabled button found by
the selector cascade (`none` when no selector matches), the URL and the
visible form text after the click, and whether an application-sent
confirmation marker is then visible. -/
structure SubmitStepObs where
  button : Option String
  url : String
  formText : Option String
  confirmed : Bool

/-- Python substring containment (`"next" in s`). -/
def containsSub : List Char → List Char → Bool
  | pat, [] => pat.isEmpty
  | pat, c :: rest => pat.isPrefixOf (c :: rest) || containsSub pat rest

/-- Python `str.lower` over the whole string. -/
def lowerStr (s : String) : List Char := s.data.map pyLowerChar

/-- `hash(form_content[:500])` when the form element is found, else the
fallback `hash(current_url)`; tagged so the two hash domains stay apart
(hash collisions are not modelled). -/
inductive PageHash
  | content (s : List Char)
  | url (u : String)
deriving DecidableEq

def stepHash (o : SubmitStepObs) : PageHash :=
  match o.formText with
  | some t => .content (t.data.take 500)
  | none => .url o.url

/-- Result of `submit_application`: the returned boolean, how much the
method itself added to `self.applied_count`, the `(step, button text)`
clicks it performed, and whether the stuck-abort path tried to click the
Dismiss button. -/
structure SubmitOutcome where
  result : Bool
  appliedDelta : Nat
  clicks : List (Nat × String)
  dismissTried : Bool
deriving DecidableEq

/-- The `for step in range(max_steps)` loop of
`JobApplicationManager.submit_application` (`max_steps = 10` supplies the
initial fuel).  Per iteration: find a button or finish (success when at
least one step was taken); click it; when the button text contains
"next", compare URL and content hash with the previous iteration's and
abort with `False` after the third consecutive unchanged click (clicking
Dismiss on the way out); otherwise record the new URL/hash and return
`True` (counting one application) when a confirmation marker is seen. -/
def submitLoop (env : Nat → SubmitStepObs) :
    Nat → Nat → Option String → Option PageHash → Nat → SubmitOutcome
  | 0, _, _, _, _ => ⟨true, 1, [], false⟩
  | fuel + 1, step, lastUrl, lastHash, stuck =>
    match (env step).button with
    | none => if 0 < step then ⟨true, 1, [], false⟩ else ⟨false, 0, [], false⟩
    | some txt =>
      let o := env step
      let h := stepHash o
      let isNext := containsSub "next".data (lowerStr txt)
      let unchanged := decide (lastUrl = some o.url) && decide (lastHash = some h)
      let stuck2 := if isNext then (if unchanged then stuck + 1 else 0) else stuck
      if isNext && unchanged && decide (3 ≤ stuck + 1) then
        ⟨false, 0, [(step, txt)], true⟩
      else if o.confirmed then
        ⟨true, 1, [(step, txt)], false⟩
      else
        let r := submitLoop env fuel (step + 1) (some o.url) (some h) stuck2
        ⟨r.result, r.appliedDelta, (step, txt) :: r.clicks, r.dismissTried⟩

/-- `JobApplicationManager.submit_application` with `max_steps = 10`,
`last_url = None`, no recorded page hash, `stuck_count = 0`. -/
def submit_application (env : Nat → SubmitStepObs) : SubmitOutcome :=
  submitLoop env 10 0 none none 0

/-- A page that always offers a Next button and never changes: same URL,
same visible form text, no confirmation. -/
def stuckEnv : Nat → SubmitStepObs :=
  fun _ => ⟨some "Next", "https://www.linkedin.com/jobs/view/1", some "Form page", false⟩

/-- The per-job behaviour of the page for `_apply_action` inside
`apply_to_job`: whether the listing carries an element reference, whether
the listing click / Easy-Apply click / form fill succeed, and the page's
behaviour during the submit loop. -/
structure ApplyEnv where
  hasElement : Bool
  clickListingOk : Bool
  easyApplyOk : Bool
  fillOk : Bool
  submitEnv : Nat → SubmitStepObs

/-- Outcome of `_apply_action`: its boolean, the manager counters after
the call, the `(status, error)` rows handed to `log_application`, the
page interactions tagged with the phase that performed them (0 = open
listing, 1 = Easy Apply, 2 = form fill, 3 = submit), and the
`(applied, failed, skipped)` triples passed to `progress_callback`. -/
structure ApplyOutcome where
  result : Bool
  applied : Nat
  failed : Nat
  skipped : Nat
  records : List (String × String)
  interactions : List (Nat × String)
  progressEmits : List (Nat × Nat × Nat)
deriving DecidableEq

/-- `_apply_action` in `JobApplicationManager.apply_to_job`, with the
cancellation flag becoming set at the start of phase `cancelFrom`
(0 = open listing, 1 = Easy Apply, 2 = form fill, 3 = submit; any larger
value = never during this job).  The flag checks in the source sit before
the listing click, before the Easy-Apply click and before the form fill —
there is none before `submit_application`, which is exactly what claim C4
is about.  The listing-click retry dance for stale elements is collapsed
into `clickListingOk`. -/
def applyToJobAction (cancelFrom : Nat) (env : ApplyEnv)
    (applied failed skipped : Nat) : ApplyOutcome :=
  if cancelFrom ≤ 0 then
    ⟨false, applied, failed, skipped, [], [], []⟩
  else
    let ints0 : List (Nat × String) :=
      if env.hasElement then [(0, "click_listing")] else []
    if env.hasElement && !env.clickListingOk then
      ⟨false, applied, failed, skipped, [], ints0, []⟩
    else
      let prog := [(applied, failed, skipped)]
      if cancelFrom ≤ 1 then
        ⟨false, applied, failed, skipped, [], ints0, prog⟩
      else if !env.easyApplyOk then
        ⟨false, applied, failed, skipped + 1,
          [("Skipped", "Easy Apply not available")], ints0, prog⟩
      else
        let ints1 := ints0 ++ [(1, "click_easy_apply")]
        if cancelFrom ≤ 2 then
          ⟨false, applied, failed, skipped, [], ints1, prog⟩
        else if !env.fillOk then
          ⟨false, applied, failed + 1, skipped,
            [("Failed", "Form fill error")], ints1, prog⟩
        else
          let ints2 := ints1 ++ [(2, "fill_form")]
          let sub := submit_application env.submitEnv
          let ints3 := ints2 ++ sub.clicks.map (fun c => (3, c.2)) ++
            (if sub.dismissTried then [(3, "dismiss")] else [])
          if sub.result then
            ⟨true, applied + sub.appliedDelta + 1, failed, skipped,
              [("Applied", "")], ints3, prog⟩
          else
            ⟨false, applied + sub.appliedDelta, failed + 1, skipped,
              [("Failed", "Submission error")], ints3, prog⟩

/-- A job page on which everything up to submission works. -/
def allOkEnv (senv : Nat → SubmitStepObs) : ApplyEnv where
  hasElement := true
  clickListingOk := true
  easyApplyOk := true
  fillOk := true
  submitEnv := senv

/-- Claim C3: on a page that always offers a Next button and whose URL
and visible form text (content hash) never change, `submit_application`
clicks Next once to record the baseline and then three more times, each
observed unchanged; the third unchanged observation aborts the loop
(closing the modal) and returns failure, so exactly four Next clicks
happen and no further click follows the abort; `apply_to_job` then logs
the application with status Failed ("Submission error") and increments
the failed counter, not the applied counter. -/
theorem claim_C3_stuck_page_abort :
    submit_application stuckEnv =
      ⟨false, 0, [(0, "Next"), (1, "Next"), (2, "Next"), (3, "Next")], true⟩ ∧
    (applyToJobAction 9 (allOkEnv stuckEnv) 0 0 0).records =
      [("Failed", "Submission error")] ∧
    (applyToJobAction 9 (allOkEnv stuckEnv) 0 0 0).result = false ∧
    (applyToJobAction 9 (allOkEnv stuckEnv) 0 0 0).applied = 0 ∧
    (applyToJobAction 9 (allOkEnv stuckEnv) 0 0 0).failed = 1 := by
  refine ⟨by decide, by decide, by decide, by decide, by decide⟩


/-- The methods of `JobApplicationManager` as writers of the
cancellation flag: `request_cancel` sets it; no other method writes it
(only `__init__` ever assigns `False`). -/
inductive ManagerOp
  | requestCancel
  | applyToJob
  | submitApp
  | fillForm
  | searchJobs
  | getJobListings
  | logApplication
  | getStatistics
deriving DecidableEq

/-- Effect of one manager method on the cancellation flag. -/
def cancelAfterOp : Bool → ManagerOp → Bool
  | _, .requestCancel => true
  | b, _ => b

/-- Helper: every manager method maps a set flag to a set flag. -/
theorem cancelAfterOp_true (op : ManagerOp) : cancelAfterOp true op = true := by
  cases op <;> rfl

/-- Claim C4, corrected.  First half (as claimed): the flag is never
cleared — any sequence of manager operations run after `request_cancel`
leaves it set.  Second half (the correction): only the transitions into
the listing-click, Easy-Apply and form-fill phases check the flag, so a
flag set by the start of one of those phases stops the job with no page
interaction at or after that phase; there is no such check before
`submit_application`, so this guarantee does not extend to phase 3. -/
theorem claim_C4_cancellation_flag :
    (∀ ops : List ManagerOp, ops.foldl cancelAfterOp true = true) ∧
    (∀ (env : ApplyEnv) (k applied failed skipped : Nat), k ≤ 2 →
      ∀ e ∈ (applyToJobAction k env applied failed skipped).interactions,
        e.1 < k) := by
  constructor
  · intro ops
    induction ops with
    | nil => rfl
    | cons op rest ih =>
      have h : cancelAfterOp true op = true := cancelAfterOp_true op
      simpa [List.foldl_cons, h] using ih
  · intro env k a f s hk e he
    interval_cases k
    · simp [applyToJobAction] at he
    · unfold applyToJobAction at he
      simp only [Nat.le_refl, Nat.le_zero, if_true, if_false] at he
      split_ifs at he <;> simp_all
    · unfold applyToJobAction at he
      split_ifs at he <;> simp_all
      rcases he with rfl | rfl <;> decide

/-- Witness for claim C4 at concrete inputs: a cancel request followed
by further manager calls leaves the flag set, and a job whose flag is
set before the Easy-Apply phase (k = 1) performs no interaction of phase
1 or later. -/
theorem claim_C4_witness :
    [ManagerOp.requestCancel, ManagerOp.applyToJob,
      ManagerOp.getStatistics].foldl cancelAfterOp true = true ∧
    ((1 : Nat) ≤ 2 ∧
      ∀ e ∈ (applyToJobAction 1 (allOkEnv stuckEnv) 0 0 0).interactions,
        e.1 < 1) := by
  refine ⟨claim_C4_cancellation_flag.1 _, by decide,
    fun e he => claim_C4_cancellation_flag.2 (allOkEnv stuckEnv) 1 0 0 0 (by decide) e he⟩

/-- Counterexample to claim C4 as stated: the flag being set does not
stop "any subsequent page interaction".  With the flag set from the
start of the submit phase (k = 3 — after the form-fill check, the last
check in `_apply_action`), the submit loop still clicks buttons: a
phase-3 "Next" click occurs. -/
theorem claim_C4_counterexample :
    (3, "Next") ∈
      (applyToJobAction 3 (allOkEnv stuckEnv) 0 0 0).interactions ∧
    (applyToJobAction 3 (allOkEnv stuckEnv) 0 0 0).interactions.filter
      (fun e => 3 ≤ e.1) ≠ [] := by
  refine ⟨by decide, by decide⟩


/-- `submit_application` adds 1 to `applied_count` exactly on the paths
that return `True` (confirmation seen, buttons exhausted after at least
one step, or step cap reached) and 0 on the failing paths. -/
theorem submitLoop_delta (env : Nat → SubmitStepObs) :
    ∀ (fuel step : Nat) (lu : Option String) (lh : Option PageHash) (st : Nat),
      (submitLoop env fuel step lu lh st).appliedDelta =
        if (submitLoop env fuel step lu lh st).result then 1 else 0 := by
  intro fuel
  induction fuel with
  | zero => intro step lu lh st; rfl
  | succ fuel ih =>
    intro step lu lh st
    unfold submitLoop
    cases heq : (env step).button with
    | none =>
      simp only [heq]
      split_ifs <;> simp_all
    | some txt =>
      simp only [heq]
      dsimp only
      split_ifs <;> simp_all [ih]

/-- An environment that immediately shows a Submit button and the sent
confirmation. -/
def confirmEnv : Nat → SubmitStepObs :=
  fun _ => ⟨some "Submit application", "https://www.linkedin.com/jobs/view/1", some "Application sent", true⟩

/-- On a job where listing click, Easy Apply, form fill and submission
all succeed and no cancellation happens, `_apply_action` returns success
and the applied counter grows by exactly 2 (submit's internal increment
plus `apply_to_job`'s own), while failed and skipped stay put and one
progress emission with the pre-job counters occurs. -/
theorem applyToJob_ok (env : ApplyEnv)
    (h1 : env.hasElement = true) (h2 : env.clickListingOk = true)
    (h3 : env.easyApplyOk = true) (h4 : env.fillOk = true)
    (h5 : (submit_application env.submitEnv).result = true)
    (a f s : Nat) :
    (applyToJobAction 4 env a f s).result = true ∧
    (applyToJobAction 4 env a f s).applied = a + 2 ∧
    (applyToJobAction 4 env a f s).failed = f ∧
    (applyToJobAction 4 env a f s).skipped = s ∧
    (applyToJobAction 4 env a f s).progressEmits = [(a, f, s)] := by
  have hd : (submit_application env.submitEnv).appliedDelta = 1 := by
    have h := submitLoop_delta env.submitEnv 10 0 none none 0
    unfold submit_application at h5 ⊢
    rw [h, h5]
    rfl
  unfold applyToJobAction
  simp only [h1, h2, h3, h4, h5, hd, Bool.not_true, Bool.and_false, if_false]
  norm_num

/-- The job loop of `LinkedInSession.run_search_and_apply` restricted to
its effect on the three counters and the per-job progress emissions:
each of the `n` jobs runs `_apply_action` with the current counters. -/
def sessionLoop (env : ApplyEnv) :
    Nat → Nat → Nat → Nat → Nat × Nat × Nat × List (Nat × Nat × Nat)
  | 0, a, f, s => (a, f, s, [])
  | n + 1, a, f, s =>
    let out := applyToJobAction 4 env a f s
    let rest := sessionLoop env n out.applied out.failed out.skipped
    (rest.1, rest.2.1, rest.2.2.1, out.progressEmits ++ rest.2.2.2)

/-- `JobApplicationManager.get_statistics`: applied, failed, skipped and
their total. -/
def get_statistics (applied failed skipped : Nat) : Nat × Nat × Nat × Nat :=
  (applied, failed, skipped, applied + failed + skipped)

/-- Helper: closed form of the session loop over all-successful jobs. -/
theorem sessionLoop_ok (env : ApplyEnv)
    (h1 : env.hasElement = true) (h2 : env.clickListingOk = true)
    (h3 : env.easyApplyOk = true) (h4 : env.fillOk = true)
    (h5 : (submit_application env.submitEnv).result = true) :
    ∀ (n a f s : Nat),
      (sessionLoop env n a f s).1 = a + 2 * n ∧
      (sessionLoop env n a f s).2.1 = f ∧
      (sessionLoop env n a f s).2.2.1 = s ∧
      (sessionLoop env n a f s).2.2.2 =
        (List.range n).map (fun i => (a + 2 * i, f, s)) := by
  intro n
  induction n with
  | zero => intro a f s; simp [sessionLoop]
  | succ n ih =>
    intro a f s
    obtain ⟨hr, ha, hf, hs, hp⟩ := applyToJob_ok env h1 h2 h3 h4 h5 a f s
    obtain ⟨ih1, ih2, ih3, ih4⟩ := ih (a + 2) f s
    unfold sessionLoop
    dsimp only
    rw [ha, hf, hs, hp]
    refine ⟨?_, ih2, ih3, ?_⟩
    · rw [ih1]; ring
    · rw [ih4, List.range_succ_eq_map, List.map_cons, List.map_map]
      simp only [List.singleton_append]
      congr 1
      refine List.map_congr_left ?_
      intro i _
      simp only [Function.comp_apply, Prod.mk.injEq, and_true]
      omega

/-- Claim C10: whenever `submit_application` returns success inside
`apply_to_job`, the applied counter is incremented twice for that one
job — once inside `submit_application` and once more in `apply_to_job` —
so after `n` all-successful jobs `applied_count` is `2 n`, the
statistics dictionary reports that doubled value, and the progress
callback's applied component shows the doubled running count `2 i`. -/
theorem claim_C10_applied_double_count (env : ApplyEnv)
    (h1 : env.hasElement = true) (h2 : env.clickListingOk = true)
    (h3 : env.easyApplyOk = true) (h4 : env.fillOk = true)
    (h5 : (submit_application env.submitEnv).result = true) :
    (∀ a f s : Nat,
      (applyToJobAction 4 env a f s).result = true ∧
      (applyToJobAction 4 env a f s).applied = a + 2) ∧
    (∀ n : Nat,
      (sessionLoop env n 0 0 0).1 = 2 * n ∧
      (get_statistics (sessionLoop env n 0 0 0).1
        (sessionLoop env n 0 0 0).2.1 (sessionLoop env n 0 0 0).2.2.1).1 = 2 * n ∧
      (sessionLoop env n 0 0 0).2.2.2 =
        (List.range n).map (fun i => (2 * i, 0, 0))) := by
  constructor
  · intro a f s
    exact ⟨(applyToJob_ok env h1 h2 h3 h4 h5 a f s).1,
      (applyToJob_ok env h1 h2 h3 h4 h5 a f s).2.1⟩
  · intro n
    obtain ⟨hA, hF, hS, hP⟩ := sessionLoop_ok env h1 h2 h3 h4 h5 n 0 0 0
    refine ⟨by omega, by rw [get_statistics]; dsimp only; omega, ?_⟩
    rw [hP]
    refine List.map_congr_left ?_
    intro i _
    norm_num

/-- Witness for claim C10 at a concrete environment and n = 3: one
successful job moves applied from 0 to 2, and a session of three
successful jobs ends with applied = 6, statistics reporting 6, and
progress-applied values 0, 2, 4. -/
theorem claim_C10_witness :
    (applyToJobAction 4 (allOkEnv confirmEnv) 0 0 0).applied = 0 + 2 ∧
    (sessionLoop (allOkEnv confirmEnv) 3 0 0 0).1 = 2 * 3 ∧
    (sessionLoop (allOkEnv confirmEnv) 3 0 0 0).2.2.2 =
      (List.range 3).map (fun i => (2 * i, 0, 0)) := by
  have h := claim_C10_applied_double_count (allOkEnv confirmEnv)
    rfl rfl rfl rfl (by decide)
  exact ⟨(h.1 0 0 0).2, (h.2 3).1, (h.2 3).2.2⟩

end AutomationManager



